import Mathlib

/-!
Verification development for a radioactive-decay simulation program
(an explicit-Euler coupled-ODE integrator over a registry of nuclides,
a series compiler producing a tabular export, and a Richardson
step-halving convergence checker).

The Python source is shallowly embedded: floating-point scalars become
rationals, Python dicts (which preserve insertion order and keep a key's
position on overwrite) become association lists with Python-dict update
semantics, raised exceptions become `Except String`, and the string time
keys (produced by formatting the float `i * dt`) are modelled by the
rational value `i * dt` itself, distinct rationals standing for distinct
key strings.
-/

namespace DecaySim

/-- The seven recognized unit names (`units_list` in `nuclide_class.py` and
the membership lists in `decay_solver.py`). -/
def units_list : List String :=
  ["seconds", "minutes", "hours", "days", "weeks", "months", "years"]

/-- Conversion table from non-second units to seconds (`second_conversion`
in `nuclide_class.py`, `time_conversions` in `decay_solver.py`; the two
copies are identical). `2.628e6` and `3.154e7` are written exactly. -/
def time_conversions : String → Option ℚ
  | "minutes" => some 60
  | "hours" => some 3600
  | "days" => some 86400
  | "weeks" => some 604800
  | "months" => some 2628000
  | "years" => some 31540000
  | _ => none

/-- Multiplicative seconds-conversion factor for a unit: 1 for "seconds",
the table entry otherwise (0 stands for the unreachable missing-key case;
every caller validates the unit first). -/
def conv_factor (u : String) : ℚ :=
  if u = "seconds" then 1 else (time_conversions u).getD 0

/-- `DecaySolver._convert_time`: seconds pass through, other units are
multiplied by the table factor. -/
def convert_time (u : String) (t : ℚ) : ℚ :=
  if u = "seconds" then t else t * (time_conversions u).getD 0

/-- The float64 value of `np.log(2)`, as an exact rational. -/
def ln2 : ℚ := 6931471805599453 / 10000000000000000

/-- A nuclide (`Nuclide` in `nuclide_class.py`): physical parameters in
seconds-based units plus the live population `n_t` and the
insertion-ordered time series `decay_data` (time in seconds ↦ population). -/
structure Nuclide where
  name : String
  parents : List String
  n_t : ℚ
  n_0 : ℚ
  half_life : ℚ
  decay_const : ℚ
  external_prod_rate : ℚ
  decay_data : List (ℚ × ℚ)
  deriving Repr, DecidableEq

/-- `Nuclide._calc_half_life`: validate the unit string, then convert the
half-life to seconds. No positivity check is present in the source. -/
def calc_half_life (half_life_unit : String) (half_life : ℚ) : Except String ℚ :=
  if half_life_unit ∉ units_list then
    .error ("Half life unit " ++ half_life_unit ++ " not recognized")
  else if half_life_unit = "seconds" then
    .ok half_life
  else
    match time_conversions half_life_unit with
    | some c => .ok (half_life * c)
    | none => .error ("Unsupported half-life unit " ++ half_life_unit)

/-- `Nuclide.__init__`: store parameters, convert the half-life, derive
`decay_const = ln 2 / half_life` (no guard against a non-positive
half-life), convert the production rate, and pre-seed the series with
`{0: n_0}`. In the source the zero-divisor case is evaluated under IEEE
semantics (numpy emits a warning and yields infinity, no exception); here
the total rational division stands in for it — the embedding is used for
the control-flow fact that no error is raised. -/
def Nuclide.make (name : String) (half_life : ℚ) (parents : Option (List String))
    (prod_rate_unit_time : String) (half_life_unit : String)
    (n_0 : ℚ) (external_prod_rate : ℚ) : Except String Nuclide := do
  let parents_v := parents.getD []
  let hl ← calc_half_life half_life_unit half_life
  let dc := ln2 / hl
  let epr ←
    if prod_rate_unit_time = "seconds" then
      Except.ok external_prod_rate
    else
      match time_conversions prod_rate_unit_time with
      | some c => Except.ok (external_prod_rate / c)
      | none => Except.error ("Unsupported production rate unit " ++ prod_rate_unit_time)
  .ok { name := name, parents := parents_v, n_t := n_0, n_0 := n_0,
        half_life := hl, decay_const := dc, external_prod_rate := epr,
        decay_data := [(0, n_0)] }

/-! ### Python-dict operations on association lists -/

/-- Dict read: first entry with the given key. -/
def dictLookup (reg : List (String × Nuclide)) (k : String) : Option Nuclide :=
  (reg.find? (fun e => e.1 = k)).map Prod.snd

/-- Dict write, Python semantics: an existing key keeps its position and
gets the new value; a new key is appended at the end. -/
def dictSet (reg : List (String × Nuclide)) (k : String) (v : Nuclide) :
    List (String × Nuclide) :=
  if (reg.find? (fun e => e.1 = k)).isSome then
    reg.map (fun e => if e.1 = k then (e.1, v) else e)
  else
    reg ++ [(k, v)]

/-- Dict read for the rational-keyed time series. -/
def lookupQ (d : List (ℚ × ℚ)) (k : ℚ) : Option ℚ :=
  (d.find? (fun e => e.1 = k)).map Prod.snd

/-- Dict write for the rational-keyed time series (same Python semantics). -/
def dictSetQ (d : List (ℚ × ℚ)) (k : ℚ) (v : ℚ) : List (ℚ × ℚ) :=
  if (d.find? (fun e => e.1 = k)).isSome then
    d.map (fun e => if e.1 = k then (e.1, v) else e)
  else
    d ++ [(k, v)]

/-! ### The solver (`DecaySolver` in `decay_solver.py`) -/

/-- The compiled table (`pandas.DataFrame` produced by `compile_data`):
one time column (in the display unit) plus one value column per nuclide. -/
structure DecayTable where
  time_col_name : String
  time_col : List ℚ
  value_cols : List (String × List ℚ)
  deriving Repr, DecidableEq

/-- The solver state. `iterations : ℤ` because `int(duration/timestep)`
truncates toward zero and the source never validates the sign of
`timestep`, so a negative value can flow through. `decay_data` is the
compiled-table slot (`None` until `compile_data` commits). -/
structure DecaySolver where
  nuclides : List (String × Nuclide)
  timestep : ℚ
  timestep_unit : String
  duration : ℚ
  duration_unit : String
  iterations : ℤ
  times_list : List ℚ
  decay_data : Option DecayTable
  deriving Repr, DecidableEq

/-- Truncation toward zero — the semantics of Python `int()` on a float. -/
def truncQ (q : ℚ) : ℤ := if 0 ≤ q then ⌊q⌋ else -⌊-q⌋

/-- `DecaySolver.__init__` (validation and field setup only; the plotting
and save-path bookkeeping is out of scope). The checks appear in source
order: timestep unit (missing, then invalid), timestep missing, duration
unit (missing, then invalid), duration missing, duration non-positive.
No positivity check exists for the timestep; `int(duration/timestep)`
raises `ZeroDivisionError` when the converted timestep is 0, modelled by
the dedicated error value. `times_list` mirrors
`[i * timestep for i in range(iterations + 1)]`, which is empty when
`iterations` is negative. -/
def DecaySolver.make (nuclides : Option (List (String × Nuclide)))
    (timestep : Option ℚ) (timestep_unit : Option String)
    (duration : Option ℚ) (duration_unit : Option String) :
    Except String DecaySolver := do
  let reg := nuclides.getD []
  let tsu ←
    match timestep_unit with
    | none => Except.error "Must provide timestep units"
    | some u =>
      if u ∉ units_list then
        Except.error "Timestep unit is not valid"
      else Except.ok u
  let ts ←
    match timestep with
    | none => Except.error "Must provide timestep"
    | some t => Except.ok (convert_time tsu t)
  let du ←
    match duration_unit with
    | none => Except.error "Must provide duration unit"
    | some u =>
      if u ∉ units_list then
        Except.error "duration unit is not valid"
      else Except.ok u
  let dur ←
    match duration with
    | none => Except.error "Must provide duration"
    | some d =>
      if d ≤ 0 then Except.error "Duration must be positive"
      else Except.ok (convert_time du d)
  let iters ←
    if ts = 0 then Except.error "ZeroDivisionError: float division by zero"
    else Except.ok (truncQ (dur / ts))
  .ok { nuclides := reg, timestep := ts, timestep_unit := tsu,
        duration := dur, duration_unit := du, iterations := iters,
        times_list := (List.range (iters + 1).toNat).map (fun i : ℕ => (i : ℚ) * ts),
        decay_data := none }

/-! ### The explicit-Euler step (`DecaySolver.calc_euler_decay`) -/

/-- The parent-flux sum (`parent_sum`): resolve the parent names against
the registry — an unregistered name is silently skipped, as in
`[self.nuclides[p] for p in nuclide.parents if p in self.nuclides]` —
and sum `decay_const * n_t` over the resolved parents. -/
def parentFlux (reg : List (String × Nuclide)) (ps : List String) : ℚ :=
  ((ps.filterMap (dictLookup reg)).map (fun p => p.decay_const * p.n_t)).sum

/-- The per-nuclide derivative-and-update expression: parent flux plus
external production minus self-decay, then one Euler step of size `dt`. -/
def eulerNext (reg : List (String × Nuclide)) (dt : ℚ) (nuc : Nuclide) : ℚ :=
  nuc.n_t +
    (parentFlux reg nuc.parents + nuc.external_prod_rate - nuc.decay_const * nuc.n_t) * dt

/-- The first loop of a step: iterate over the registry entries in order;
for each, compute `next_n_t` from the registry as it stands at that
iteration (earlier iterations have already written their `decay_data`
entry — the mutation the source performs in place), record the value in
that nuclide's series under the step's time key, and remember it in
`next_values`. `done` is the already-visited prefix, `todo` the rest. -/
def computePhase (dt t_val : ℚ) :
    List (String × Nuclide) → List (String × Nuclide) →
    List (String × Nuclide) × List (String × ℚ)
  | done, [] => (done, [])
  | done, (name, nuc) :: todo =>
    let next := eulerNext (done ++ (name, nuc) :: todo) dt nuc
    let nucW : Nuclide := { nuc with decay_data := dictSetQ nuc.decay_data t_val next }
    let rest := computePhase dt t_val (done ++ [(name, nucW)]) todo
    (rest.1, (name, next) :: rest.2)

/-- The second loop of a step: `self.nuclides[name].n_t = value` for each
entry of `next_values`. -/
def commitPhase (reg : List (String × Nuclide)) (nexts : List (String × ℚ)) :
    List (String × Nuclide) :=
  nexts.foldl
    (fun r e => r.map (fun p => if p.1 = e.1 then (p.1, { p.2 with n_t := e.2 }) else p))
    reg

/-- One full step of `calc_euler_decay` at step index `idx`, with `t_val`
read from `times_list`. -/
def calcEulerStep (dt : ℚ) (times_list : List ℚ) (idx : ℕ)
    (reg : List (String × Nuclide)) : List (String × Nuclide) :=
  let t_val := times_list.getD idx 0
  let r := computePhase dt t_val [] reg
  commitPhase r.1 r.2

/-- The registry after the first `k` steps of the run (step indices 1..k). -/
def stepsUpTo (s : DecaySolver) (k : ℕ) : List (String × Nuclide) :=
  (List.range k).foldl (fun reg j => calcEulerStep s.timestep s.times_list (j + 1) reg)
    s.nuclides

/-- `DecaySolver.calc_euler_decay`: run every step index in
`range(1, iterations + 1)`. -/
def calc_euler_decay (s : DecaySolver) : DecaySolver :=
  { s with nuclides := stepsUpTo s s.iterations.toNat }

/-! ### Series compiler (`_make_dataframe`, `compile_data`) -/

/-- Replace the named column of a table, keeping its position (pandas
column assignment on an existing column). A missing name appends. -/
def setCol (t : DecayTable) (name : String) (vals : List ℚ) : DecayTable :=
  if (t.value_cols.find? (fun e => e.1 = name)).isSome then
    { t with value_cols := t.value_cols.map (fun e => if e.1 = name then (e.1, vals) else e) }
  else
    { t with value_cols := t.value_cols ++ [(name, vals)] }

/-- `DecaySolver._make_dataframe`: `iterations + 1` rows (an empty frame
when `iterations` is negative, as `np.arange` of a negative count is
empty), a zero-initialized column per registered nuclide named by the
nuclide's `name` field, and the time column `i * timestep` divided by the
duration-unit factor whenever the display unit is not seconds. -/
def make_dataframe (s : DecaySolver) : DecayTable :=
  let n_rows := (s.iterations + 1).toNat
  let names := s.nuclides.map (fun e => e.2.name)
  let raw_times := (List.range n_rows).map (fun i : ℕ => (i : ℚ) * s.timestep)
  { time_col_name := "time (" ++ s.duration_unit ++ ")",
    time_col :=
      if s.duration_unit ≠ "seconds" then
        raw_times.map (fun t => t / (time_conversions s.duration_unit).getD 0)
      else raw_times,
    value_cols := names.map (fun n => (n, List.replicate n_rows 0)) }

/-- The data-misalignment message raised by `compile_data`. -/
def misalignMsg (name : String) : String :=
  "Time keys for nuclide " ++ name ++ " do not match solver times."

/-- `DecaySolver.compile_data`: walk the registered nuclides in order;
on the first whose series keys differ from `times_list`, raise the
misalignment error naming it; otherwise write its series values into its
column. Returns the finished table. -/
def compile_data (s : DecaySolver) : Except String DecayTable :=
  (s.nuclides.map Prod.snd).foldlM
    (fun df nuc =>
      if nuc.decay_data.map Prod.fst ≠ s.times_list then
        Except.error (misalignMsg nuc.name)
      else Except.ok (setCol df nuc.name (nuc.decay_data.map Prod.snd)))
    (make_dataframe s)

/-- `compile_data` at the state level: `self.decay_data = decay_df` runs
only after the loop finishes, so a raise leaves the solver's compiled
slot untouched. -/
def compile_data_state (s : DecaySolver) : DecaySolver :=
  match compile_data s with
  | .ok df => { s with decay_data := some df }
  | .error _ => s

/-! ### `DecaySolver.add_nuclide` and `DecaySolver.run` -/

/-- `DecaySolver.add_nuclide`: construct the `Nuclide` (unit validation
may raise) and assign it under the given name — a plain dict assignment,
so an existing name is silently overwritten. -/
def add_nuclide (s : DecaySolver) (nuclide : String) (parent_nuclides : List String)
    (half_life : ℚ) (n_0 : ℚ) (external_prod_rate : ℚ)
    (half_life_unit : String) (prod_rate_unit : String) :
    Except String DecaySolver := do
  let entry ← Nuclide.make nuclide half_life (some parent_nuclides)
    prod_rate_unit half_life_unit n_0 external_prod_rate
  .ok { s with nuclides := dictSet s.nuclides nuclide entry }

/-- `DecaySolver.run` with plotting and saving disabled (the flags the
convergence checker passes): step the system, then compile; a compile
error propagates after the stepping mutations have happened. -/
def DecaySolver.run (s : DecaySolver) : Except String DecaySolver := do
  let s1 := calc_euler_decay s
  let df ← compile_data s1
  .ok { s1 with decay_data := some df }

/-! ### Convergence checker (`check_convergence` in
`error_analysis_utils.py`) -/

/-- The last recorded population of a nuclide:
`nuclide.decay_data[next(reversed(nuclide.decay_data))]`. The series is
never empty in any reachable state (it is pre-seeded at construction);
the 0 default stands for the unreachable empty case. -/
def lastPop (nuc : Nuclide) : ℚ :=
  match nuc.decay_data.getLast? with
  | some e => e.2
  | none => 0

/-- The infinity norm of the loop body: over the names present in both
post-run registries, the maximum absolute difference of the last recorded
populations, starting from `error_inf = 0`. (Python iterates a set
intersection in unspecified order; `max` makes the fold order
irrelevant, and the embedding fixes the first registry's order.) -/
def error_inf_of (c1 c2 : List (String × Nuclide)) : ℚ :=
  ((c1.map Prod.fst).filter (fun n => (dictLookup c2 n).isSome)).foldl
    (fun acc n =>
      let v1 := match dictLookup c1 n with | some x => lastPop x | none => 0
      let v2 := match dictLookup c2 n with | some x => lastPop x | none => 0
      max acc |v1 - v2|)
    0

/-- One sub-run of the convergence loop: build a solver over a fresh copy
of the nuclide set (seconds units, as in the source) and run it,
returning the post-run registry the comparison reads. -/
def solver_run_conv (nuclides : List (String × Nuclide)) (dt stop : ℚ) :
    Except String (List (String × Nuclide)) := do
  let s ← DecaySolver.make (some nuclides) (some dt) (some "seconds")
    (some stop) (some "seconds")
  let s1 ← s.run
  .ok s1.nuclides

/-- The `while True` step-halving loop of `check_convergence`, given
fuel: each iteration deep-copies the caller's nuclide set twice, runs the
solver at `dt` on one copy and at `dt/2` on the other, and compares; a
strict `error_inf < tolerance` declares convergence at `dt/2`, otherwise
`dt` is halved and the loop repeats. `none` means the fuel ran out with
no convergence declared. -/
def check_convergence_loop (tol : ℚ) (nuclides : List (String × Nuclide))
    (dt stop : ℚ) : ℕ → Except String (Option (ℚ × ℚ))
  | 0 => .ok none
  | fuel + 1 => do
    let chain1 := nuclides
    let chain2 := nuclides
    let c1 ← solver_run_conv chain1 dt stop
    let c2 ← solver_run_conv chain2 (dt / 2) stop
    let err := error_inf_of c1 c2
    if err < tol then .ok (some (dt / 2, err))
    else check_convergence_loop tol nuclides (dt / 2) stop fuel

/-! ### Object-heap model for the copy discipline of `check_convergence`

The convergence checker's frame property is about Python object
identity: `copy.deepcopy` allocates fresh objects, and the solver
mutates the `Nuclide` objects its dict refers to. The heap assigns
numeric references to `Nuclide` values; a nuclide dict becomes a map
from names to references. -/

/-- A placeholder nuclide for unreachable dangling-reference reads. -/
def defaultNuclide : Nuclide :=
  { name := "", parents := [], n_t := 0, n_0 := 0, half_life := 0,
    decay_const := 0, external_prod_rate := 0, decay_data := [] }

/-- The object store: reference ↦ nuclide, plus the next fresh reference. -/
structure Heap where
  store : List (ℕ × Nuclide)
  fresh : ℕ
  deriving Repr, DecidableEq

/-- Dereference. -/
def heapGet (h : Heap) (r : ℕ) : Option Nuclide :=
  (h.store.find? (fun e => e.1 = r)).map Prod.snd

/-- In-place mutation of the object a reference denotes. -/
def heapSet (h : Heap) (r : ℕ) (v : Nuclide) : Heap :=
  { h with store := h.store.map (fun e => if e.1 = r then (e.1, v) else e) }

/-- Allocate a new object and return its reference. -/
def allocNuc (h : Heap) (n : Nuclide) : ℕ × Heap :=
  (h.fresh, { store := h.store ++ [(h.fresh, n)], fresh := h.fresh + 1 })

/-- `copy.deepcopy` on a nuclide dict: allocate a fresh object holding a
copy of each entry's value, preserving names and order. -/
def deepcopyDict (h : Heap) : List (String × ℕ) → List (String × ℕ) × Heap
  | [] => ([], h)
  | (name, r) :: rest =>
    let a := allocNuc h ((heapGet h r).getD defaultNuclide)
    let tail := deepcopyDict a.2 rest
    ((name, a.1) :: tail.1, tail.2)

/-- Read a nuclide dict out of the heap into a value-level registry. -/
def readDictH (h : Heap) (d : List (String × ℕ)) : List (String × Nuclide) :=
  d.map (fun e => (e.1, (heapGet h e.2).getD defaultNuclide))

/-- Write a value-level registry back through a nuclide dict, mutating
exactly the objects the dict refers to. -/
def writeDictH (h : Heap) (d : List (String × ℕ)) (vals : List (String × Nuclide)) :
    Heap :=
  d.foldl
    (fun hh e =>
      match dictLookup vals e.1 with
      | some v => heapSet hh e.2 v
      | none => hh)
    h

/-- One solver sub-run against the heap: construct the solver over the
dict's current objects, perform the stepping mutations, and only then
run the compile check — a compile error propagates after the mutations
have landed, exactly as an exception would in the source. -/
def solver_run_heap (h : Heap) (d : List (String × ℕ)) (dt stop : ℚ) :
    Except String Unit × Heap :=
  match DecaySolver.make (some (readDictH h d)) (some dt) (some "seconds")
      (some stop) (some "seconds") with
  | .error e => (.error e, h)
  | .ok s =>
    let s1 := calc_euler_decay s
    let h1 := writeDictH h d s1.nuclides
    match compile_data s1 with
    | .error e => (.error e, h1)
    | .ok _ => (.ok (), h1)

/-- The step-halving loop over the heap: each iteration deep-copies the
caller's dict twice (fresh copies every time around), runs the solver on
each copy, and compares the copies' post-run objects; the caller's dict
`d` itself is only ever read. -/
def check_convergence_heap (tol stop : ℚ) :
    ℕ → Heap → List (String × ℕ) → ℚ →
    Except String (Option (ℚ × ℚ)) × Heap
  | 0, h, _, _ => (.ok none, h)
  | fuel + 1, h, d, dt =>
    let p1 := deepcopyDict h d
    let p2 := deepcopyDict p1.2 d
    match solver_run_heap p2.2 p1.1 dt stop with
    | (.error e, h3) => (.error e, h3)
    | (.ok _, h3) =>
      match solver_run_heap h3 p2.1 (dt / 2) stop with
      | (.error e, h4) => (.error e, h4)
      | (.ok _, h4) =>
        let err := error_inf_of (readDictH h4 p1.1) (readDictH h4 p2.1)
        if err < tol then (.ok (some (dt / 2, err)), h4)
        else check_convergence_heap tol stop fuel h4 d (dt / 2)

/-! ### Generic association-list lemmas -/

section AssocLemmas

variable {κ : Type} {α : Type} {β : Type} [DecidableEq κ]

/-- `find?` by key misses when the key is absent. -/
lemma find_key_eq_none (l : List (κ × α)) (k : κ) (h : k ∉ l.map Prod.fst) :
    l.find? (fun e => e.1 = k) = none := by
  rw [List.find?_eq_none]
  intro x hx
  simp only [decide_eq_true_eq]
  intro hk
  exact h (hk ▸ List.mem_map_of_mem Prod.fst hx)

/-- `find?` by key commutes with a key-preserving map. -/
lemma find_key_map (f : κ × α → κ × β) (hf : ∀ e, (f e).1 = e.1)
    (l : List (κ × α)) (k : κ) :
    (l.map f).find? (fun e => e.1 = k) = (l.find? (fun e => e.1 = k)).map f := by
  induction l with
  | nil => rfl
  | cons a l ih =>
    rw [List.map_cons, List.find?_cons, List.find?_cons]
    by_cases hk : a.1 = k
    · simp [hf, hk]
    · simp only [hf a, decide_eq_false hk]
      exact ih

/-- With nodup keys, `find?` by a member's key returns that member. -/
lemma find_key_self (l : List (κ × α)) (e : κ × α) (he : e ∈ l)
    (hnd : (l.map Prod.fst).Nodup) :
    l.find? (fun x => x.1 = e.1) = some e := by
  induction l with
  | nil => exact absurd he (List.not_mem_nil e)
  | cons a l ih =>
    rcases List.mem_cons.mp he with rfl | hmem
    · exact List.find?_cons_of_pos _ (by simp)
    · have hne : ¬ a.1 = e.1 := by
        intro hk
        have : e.1 ∈ l.map Prod.fst := List.mem_map_of_mem Prod.fst hmem
        rw [List.map_cons, List.nodup_cons] at hnd
        exact hnd.1 (hk ▸ this)
      rw [List.find?_cons_of_neg _ (by simpa using hne)]
      exact ih hmem (by rw [List.map_cons, List.nodup_cons] at hnd; exact hnd.2)

end AssocLemmas

/-! ### Lemmas about the dict operations -/

/-- A successful dict read means `find?` hit the exact pair. -/
lemma dictLookup_eq_some (reg : List (String × Nuclide)) (k : String) (v : Nuclide) :
    dictLookup reg k = some v ↔ reg.find? (fun e => e.1 = k) = some (k, v) := by
  unfold dictLookup
  constructor
  · intro h
    rcases Option.map_eq_some'.mp h with ⟨e, he, hv⟩
    have hp := List.find?_some he
    simp only [decide_eq_true_eq] at hp
    rw [he]
    cases e
    simp_all
  · intro h
    rw [h]
    rfl

/-- Reading through a key-preserving map of the registry. -/
lemma dictLookup_map (f : String × Nuclide → String × Nuclide)
    (hf : ∀ e, (f e).1 = e.1) (reg : List (String × Nuclide)) (k : String) :
    dictLookup (reg.map f) k = (reg.find? (fun e => e.1 = k)).map (fun e => (f e).2) := by
  unfold dictLookup
  rw [find_key_map f hf]
  cases reg.find? (fun e => e.1 = k) <;> rfl

/-- With nodup keys, the dict read of a member's key gives its value. -/
lemma dictLookup_self (reg : List (String × Nuclide)) (e : String × Nuclide)
    (he : e ∈ reg) (hnd : (reg.map Prod.fst).Nodup) :
    dictLookup reg e.1 = some e.2 := by
  unfold dictLookup
  rw [find_key_self reg e he hnd]
  rfl

/-- A fresh time key appends to the series (the dict-insert fast path). -/
lemma dictSetQ_fresh (d : List (ℚ × ℚ)) (k v : ℚ) (h : k ∉ d.map Prod.fst) :
    dictSetQ d k v = d ++ [(k, v)] := by
  unfold dictSetQ
  rw [find_key_eq_none d k h]
  rfl

/-! ### The two-phase step equals the explicit-Euler specification -/

/-- The fields of a registry that `eulerNext` reads through parent
lookups: keys in order, and each entry's `decay_const` and `n_t`. -/
def regFlux (reg : List (String × Nuclide)) : List (String × ℚ × ℚ) :=
  reg.map (fun e => (e.1, e.2.decay_const, e.2.n_t))

/-- Registries with the same flux view resolve every lookup to the same
`(decay_const, n_t)` pair. -/
lemma dictLookup_flux_congr (reg1 reg2 : List (String × Nuclide))
    (h : regFlux reg1 = regFlux reg2) (p : String) :
    (dictLookup reg1 p).map (fun x => (x.decay_const, x.n_t)) =
      (dictLookup reg2 p).map (fun x => (x.decay_const, x.n_t)) := by
  unfold regFlux at h
  unfold dictLookup
  induction reg1 generalizing reg2 with
  | nil =>
    have : reg2 = [] := by
      cases reg2 with
      | nil => rfl
      | cons b l2 => simp at h
    rw [this]
  | cons a l1 ih =>
    cases reg2 with
    | nil => simp at h
    | cons b l2 =>
      simp only [List.map_cons, List.cons.injEq, Prod.mk.injEq] at h
      obtain ⟨⟨hk, hc, hn⟩, htail⟩ := h
      rw [List.find?_cons, List.find?_cons, hk]
      cases hd : decide (b.1 = p) with
      | true => simp [hc, hn]
      | false => exact ih l2 htail

/-- The parent flux only depends on the flux view of the registry. -/
lemma parentFlux_congr (reg1 reg2 : List (String × Nuclide))
    (h : regFlux reg1 = regFlux reg2) (ps : List String) :
    parentFlux reg1 ps = parentFlux reg2 ps := by
  unfold parentFlux
  induction ps with
  | nil => rfl
  | cons p ps ih =>
    have hp := dictLookup_flux_congr reg1 reg2 h p
    rw [List.filterMap_cons, List.filterMap_cons]
    cases h1 : dictLookup reg1 p with
    | none =>
      cases h2 : dictLookup reg2 p with
      | none => exact ih
      | some v2 => rw [h1, h2] at hp; simp at hp
    | some v1 =>
      cases h2 : dictLookup reg2 p with
      | none => rw [h1, h2] at hp; simp at hp
      | some v2 =>
        rw [h1, h2] at hp
        simp only [Option.map_some', Option.some.injEq, Prod.mk.injEq] at hp
        simp only [List.map_cons, List.sum_cons, ih, hp.1, hp.2]

/-- The Euler update only depends on the flux view of the registry. -/
lemma eulerNext_congr (reg1 reg2 : List (String × Nuclide))
    (h : regFlux reg1 = regFlux reg2) (dt : ℚ) (nuc : Nuclide) :
    eulerNext reg1 dt nuc = eulerNext reg2 dt nuc := by
  unfold eulerNext
  rw [parentFlux_congr reg1 reg2 h]

/-- The entry shape after the compute loop alone: the step's value is
recorded in the series, `n_t` not yet committed. -/
def dataEntry (reg : List (String × Nuclide)) (dt t_val : ℚ) (e : String × Nuclide) :
    String × Nuclide :=
  (e.1, { e.2 with
            decay_data := dictSetQ e.2.decay_data t_val (eulerNext reg dt e.2) })

/-- The entry shape after compute and commit: series recorded and `n_t`
replaced, both with the update computed from the pre-step registry. -/
def stepEntry (reg : List (String × Nuclide)) (dt t_val : ℚ) (e : String × Nuclide) :
    String × Nuclide :=
  (e.1, { e.2 with
            n_t := eulerNext reg dt e.2,
            decay_data := dictSetQ e.2.decay_data t_val (eulerNext reg dt e.2) })

/-- The explicit-Euler specification of one step: every entry is updated
from the pre-step registry `reg` alone. -/
def eulerStepSpec (dt t_val : ℚ) (reg : List (String × Nuclide)) :
    List (String × Nuclide) :=
  reg.map (stepEntry reg dt t_val)

/-- Writing only `decay_data` leaves the flux view unchanged. -/
lemma regFlux_decay_write (done : List (String × Nuclide)) (name : String)
    (nuc nucW : Nuclide) (todo : List (String × Nuclide))
    (hc : nucW.decay_const = nuc.decay_const) (hn : nucW.n_t = nuc.n_t) :
    regFlux (done ++ [(name, nucW)] ++ todo) = regFlux (done ++ (name, nuc) :: todo) := by
  unfold regFlux
  simp [hc, hn]

/-- The compute loop, fully characterized: every `next_n_t` equals the
update computed from the pre-step registry `reg0`, even though the loop
reads the registry through its own in-place `decay_data` writes. -/
lemma computePhase_spec (dt t_val : ℚ) (reg0 : List (String × Nuclide)) :
    ∀ (todo done : List (String × Nuclide)),
    regFlux (done ++ todo) = regFlux reg0 →
    computePhase dt t_val done todo =
      (done ++ todo.map (dataEntry reg0 dt t_val),
       todo.map (fun e => (e.1, eulerNext reg0 dt e.2))) := by
  intro todo
  induction todo with
  | nil =>
    intro done _
    rw [computePhase]
    simp
  | cons a todo ih =>
    intro done hflux
    obtain ⟨name, nuc⟩ := a
    have hnext : eulerNext (done ++ (name, nuc) :: todo) dt nuc = eulerNext reg0 dt nuc :=
      eulerNext_congr _ _ hflux dt nuc
    have hflux2 : ∀ w : Nuclide, w.decay_const = nuc.decay_const → w.n_t = nuc.n_t →
        regFlux ((done ++ [(name, w)]) ++ todo) = regFlux reg0 := by
      intro w hc hn
      rw [regFlux_decay_write done name nuc w todo hc hn]
      exact hflux
    have hfx : regFlux ((done ++ [(name, { nuc with decay_data := dictSetQ nuc.decay_data t_val (eulerNext reg0 dt nuc) })]) ++ todo) = regFlux reg0 := hflux2 _ rfl rfl
    rw [computePhase, hnext]
    rw [ih _ hfx]
    simp [dataEntry, List.append_assoc]

/-- The commit loop: with nodup keys in `nexts`, each entry of `r` gets
its `n_t` overwritten by its own pending value, if any. -/
lemma commitPhase_spec (nexts : List (String × ℚ)) :
    ∀ (r : List (String × Nuclide)), (nexts.map Prod.fst).Nodup →
    commitPhase r nexts = r.map (fun e =>
      match nexts.find? (fun x => x.1 = e.1) with
      | some x => (e.1, { e.2 with n_t := x.2 })
      | none => e) := by
  induction nexts with
  | nil =>
    intro r _
    simp [commitPhase]
  | cons a nexts ih =>
    intro r hnd
    rw [List.map_cons, List.nodup_cons] at hnd
    unfold commitPhase
    rw [List.foldl_cons]
    have step : (commitPhase
        (r.map (fun p => if p.1 = a.1 then (p.1, { p.2 with n_t := a.2 }) else p)) nexts) =
        (r.map (fun p => if p.1 = a.1 then (p.1, { p.2 with n_t := a.2 }) else p)).map
          (fun e =>
            match nexts.find? (fun x => x.1 = e.1) with
            | some x => (e.1, { e.2 with n_t := x.2 })
            | none => e) := ih _ hnd.2
    rw [show (List.foldl
        (fun r e => r.map (fun p => if p.1 = e.1 then (p.1, { p.2 with n_t := e.2 }) else p))
        (r.map (fun p => if p.1 = a.1 then (p.1, { p.2 with n_t := a.2 }) else p)) nexts) =
        commitPhase (r.map (fun p => if p.1 = a.1 then (p.1, { p.2 with n_t := a.2 }) else p))
          nexts from rfl]
    rw [step, List.map_map]
    apply List.map_congr_left
    intro e _
    by_cases hk : e.1 = a.1
    · have hnone : nexts.find? (fun x => x.1 = e.1) = none := by
        apply find_key_eq_none
        rw [hk]
        exact hnd.1
      have htrue : decide (a.1 = e.1) = true := by simp [hk]
      simp only [Function.comp_apply, if_pos hk, List.find?_cons, htrue, hnone]
    · have hfalse : decide (a.1 = e.1) = false := by simp [Ne.symm hk]
      simp only [Function.comp_apply, if_neg hk, List.find?_cons, hfalse]

/-- The full two-phase step equals the explicit-Euler specification:
with nodup registry keys (a Python-dict invariant), the sequential
compute-then-commit loops produce exactly the batch update computed from
the pre-step registry. -/
lemma calcEulerStep_spec (dt : ℚ) (tl : List ℚ) (idx : ℕ) (reg : List (String × Nuclide))
    (hnd : (reg.map Prod.fst).Nodup) :
    calcEulerStep dt tl idx reg = eulerStepSpec dt (tl.getD idx 0) reg := by
  show commitPhase (computePhase dt (tl.getD idx 0) [] reg).1
    (computePhase dt (tl.getD idx 0) [] reg).2 = _
  rw [computePhase_spec dt (tl.getD idx 0) reg reg [] rfl]
  rw [List.nil_append]
  have hnd2 : ((reg.map (fun e => (e.1, eulerNext reg dt e.2))).map Prod.fst).Nodup := by
    rw [List.map_map]
    exact hnd
  rw [commitPhase_spec _ _ hnd2]
  rw [List.map_map]
  unfold eulerStepSpec
  apply List.map_congr_left
  intro e he
  have hfind : (reg.map (fun x => (x.1, eulerNext reg dt x.2))).find?
      (fun x => x.1 = (dataEntry reg dt (tl.getD idx 0) e).1) = some (e.1, eulerNext reg dt e.2) := by
    rw [show (dataEntry reg dt (tl.getD idx 0) e).1 = e.1 from rfl]
    rw [find_key_map (fun x : String × Nuclide => (x.1, eulerNext reg dt x.2)) (fun x => rfl)
      reg e.1, find_key_self reg e he hnd]
    rfl
  simp only [Function.comp_apply, hfind]
  rfl

/-- A step preserves the registry's keys, in order. -/
lemma eulerStepSpec_keys (dt t : ℚ) (reg : List (String × Nuclide)) :
    (eulerStepSpec dt t reg).map Prod.fst = reg.map Prod.fst := by
  unfold eulerStepSpec
  rw [List.map_map]
  rfl

/-- Reading a stepped registry: the entry is the explicit-Euler update of
the pre-step entry. -/
lemma dictLookup_eulerStepSpec (dt t : ℚ) (reg : List (String × Nuclide))
    (name : String) (nuc : Nuclide) (hlk : dictLookup reg name = some nuc) :
    dictLookup (eulerStepSpec dt t reg) name =
      some { nuc with
               n_t := eulerNext reg dt nuc,
               decay_data := dictSetQ nuc.decay_data t (eulerNext reg dt nuc) } := by
  unfold eulerStepSpec
  rw [dictLookup_map (stepEntry reg dt t) (fun e => rfl)]
  rw [(dictLookup_eq_some reg name nuc).mp hlk]
  rfl

/-- Unfolding one more step of the run. -/
lemma stepsUpTo_succ (s : DecaySolver) (k : ℕ) :
    stepsUpTo s (k + 1) = calcEulerStep s.timestep s.times_list (k + 1) (stepsUpTo s k) := by
  unfold stepsUpTo
  rw [List.range_succ, List.foldl_append, List.foldl_cons, List.foldl_nil]

/-- The run preserves the registry's keys at every step. -/
lemma stepsUpTo_keys (s : DecaySolver) (hnd : (s.nuclides.map Prod.fst).Nodup) (k : ℕ) :
    (stepsUpTo s k).map Prod.fst = s.nuclides.map Prod.fst := by
  induction k with
  | zero => rfl
  | succ k ih =>
    rw [stepsUpTo_succ, calcEulerStep_spec _ _ _ _ (by rw [ih]; exact hnd),
      eulerStepSpec_keys, ih]

/-- Reading the `i`-th sample time out of a range-map list. -/
lemma getD_range_map (f : ℕ → ℚ) (n i : ℕ) (h : i < n) :
    ((List.range n).map f).getD i 0 = f i := by
  rw [List.getD_eq_getElem?_getD, List.getElem?_map, List.getElem?_range h]
  rfl

/-- `DecaySolver.make` on valid input, fully characterized. -/
lemma make_ok (reg : List (String × Nuclide)) (dtv durv : ℚ) (u_t u_d : String)
    (h1 : u_t ∈ units_list) (h2 : u_d ∈ units_list)
    (h3 : ¬ durv ≤ 0) (h4 : convert_time u_t dtv ≠ 0) :
    DecaySolver.make (some reg) (some dtv) (some u_t) (some durv) (some u_d) = .ok
      { nuclides := reg, timestep := convert_time u_t dtv, timestep_unit := u_t,
        duration := convert_time u_d durv, duration_unit := u_d,
        iterations := truncQ (convert_time u_d durv / convert_time u_t dtv),
        times_list := (List.range ((truncQ (convert_time u_d durv / convert_time u_t dtv)) + 1).toNat).map
          (fun i : ℕ => (i : ℚ) * convert_time u_t dtv),
        decay_data := none } := by
  unfold DecaySolver.make
  simp [h1, h2, h3, h4, bind, Except.bind]

/-- C1. For every step index `i` from 1 to `total_steps` and every
registered nuclide, `calc_euler_decay` records the step-`i` population
at sample time `i*dt` as
`N_prev + (parent_flux + external_prod_rate - decay_const * N_prev) * dt`
where every `_prev` value (the nuclide's own and each registered
parent's, inside `parentFlux`) is the step-`(i-1)` state: the whole
update is a function of the pre-step registry, so no nuclide's update
reads another nuclide's already-updated value, and the committed `n_t`
equals the recorded series value — the compute-then-commit protocol. -/
theorem euler_step_two_phase
    (s : DecaySolver) (hnd : (s.nuclides.map Prod.fst).Nodup)
    (hts : s.times_list = (List.range (s.iterations + 1).toNat).map
      (fun j : ℕ => (j : ℚ) * s.timestep))
    (i : ℕ) (h1 : 1 ≤ i) (hi : i ≤ s.iterations.toNat)
    (name : String) (nuc : Nuclide)
    (hprev : dictLookup (stepsUpTo s (i - 1)) name = some nuc) :
    dictLookup (stepsUpTo s i) name = some
      { nuc with
          n_t := nuc.n_t + (parentFlux (stepsUpTo s (i - 1)) nuc.parents
            + nuc.external_prod_rate - nuc.decay_const * nuc.n_t) * s.timestep,
          decay_data := dictSetQ nuc.decay_data ((i : ℚ) * s.timestep)
            (nuc.n_t + (parentFlux (stepsUpTo s (i - 1)) nuc.parents
              + nuc.external_prod_rate - nuc.decay_const * nuc.n_t) * s.timestep) } := by
  obtain ⟨j, rfl⟩ : ∃ j, i = j + 1 := ⟨i - 1, (Nat.succ_pred_eq_of_pos h1).symm⟩
  have hj : j + 1 - 1 = j := by omega
  rw [hj] at hprev ⊢
  have hndj : ((stepsUpTo s j).map Prod.fst).Nodup := by
    rw [stepsUpTo_keys s hnd j]; exact hnd
  have hlt : j + 1 < (s.iterations + 1).toNat := by omega
  have ht : s.times_list.getD (j + 1) 0 = ((j + 1 : ℕ) : ℚ) * s.timestep := by
    rw [hts, getD_range_map _ _ _ hlt]
  rw [stepsUpTo_succ, calcEulerStep_spec _ _ _ _ hndj, ht]
  rw [dictLookup_eulerStepSpec _ _ _ _ _ hprev]
  rfl

/-- Every recognized unit has a positive conversion factor. -/
lemma conv_factor_pos (u : String) (hu : u ∈ units_list) : 0 < conv_factor u := by
  fin_cases hu <;> decide

/-- `_convert_time` is multiplication by the unit's factor. -/
lemma convert_time_eq (u : String) (t : ℚ) : convert_time u t = t * conv_factor u := by
  unfold convert_time conv_factor
  split <;> simp

/-- Python `int()` agrees with the floor on non-negative values. -/
lemma truncQ_nonneg (q : ℚ) (h : 0 ≤ q) : truncQ q = ⌊q⌋ := by
  unfold truncQ
  rw [if_pos h]

/-- The series-keys invariant of the run: starting from freshly seeded
series, after `k` steps every nuclide's series keys are exactly
`0, dt, ..., k*dt`, in order. -/
lemma run_keys_invariant (s : DecaySolver)
    (hnd : (s.nuclides.map Prod.fst).Nodup)
    (hts : s.times_list = (List.range (s.iterations + 1).toNat).map
      (fun j : ℕ => (j : ℚ) * s.timestep))
    (hdt : 0 < s.timestep) (hit : 0 ≤ s.iterations) :
    ∀ k, k ≤ s.iterations.toNat → ∀ e ∈ s.nuclides,
      (e : String × Nuclide).2.decay_data = [(0, e.2.n_0)] →
      ∃ nuc, dictLookup (stepsUpTo s k) e.1 = some nuc ∧
        nuc.decay_data.map Prod.fst =
          (List.range (k + 1)).map (fun i : ℕ => (i : ℚ) * s.timestep) := by
  intro k
  induction k with
  | zero =>
    intro _ e he hseed
    refine ⟨e.2, dictLookup_self s.nuclides e he hnd, ?_⟩
    rw [hseed]
    simp [List.range_succ]
  | succ k ih =>
    intro hk e he hseed
    obtain ⟨nuc, hlk, hkeys⟩ := ih (by omega) e he hseed
    have hndk : ((stepsUpTo s k).map Prod.fst).Nodup := by
      rw [stepsUpTo_keys s hnd k]; exact hnd
    have hlt : k + 1 < (s.iterations + 1).toNat := by omega
    have ht : s.times_list.getD (k + 1) 0 = ((k + 1 : ℕ) : ℚ) * s.timestep := by
      rw [hts, getD_range_map _ _ _ hlt]
    have hfreshkey : ((k + 1 : ℕ) : ℚ) * s.timestep ∉ nuc.decay_data.map Prod.fst := by
      rw [hkeys]
      intro hmem
      obtain ⟨i, hi, hieq⟩ := List.mem_map.mp hmem
      have hir : i < k + 1 := List.mem_range.mp hi
      have : (i : ℚ) = ((k + 1 : ℕ) : ℚ) :=
        mul_right_cancel₀ (ne_of_gt hdt) hieq
      have : i = k + 1 := Nat.cast_injective this
      omega
    refine ⟨{ nuc with n_t := eulerNext (stepsUpTo s k) s.timestep nuc, decay_data := dictSetQ nuc.decay_data (((k + 1 : ℕ) : ℚ) * s.timestep) (eulerNext (stepsUpTo s k) s.timestep nuc) }, ?_, ?_⟩
    · rw [stepsUpTo_succ, calcEulerStep_spec _ _ _ _ hndk, ht]
      exact dictLookup_eulerStepSpec _ _ _ _ _ hlk
    · show (dictSetQ nuc.decay_data _ _).map Prod.fst = _
      rw [dictSetQ_fresh _ _ _ hfreshkey, List.map_append, hkeys]
      simp [List.range_succ]

/-- C2. For strictly positive timestep and duration (any recognized
units) and a freshly constructed nuclide set (each series pre-seeded with
the single entry `{0: n0}`), after the solver runs every nuclide's series
has exactly `floor(duration_seconds/timestep_seconds) + 1` entries (the
`t = 0` one included) whose time keys exactly equal the solver's
precomputed sample-time sequence `0, dt, ..., total_steps*dt`, in the
same order. -/
theorem run_sample_count
    (nuclides : List (String × Nuclide)) (dtv durv : ℚ) (u_t u_d : String)
    (hu1 : u_t ∈ units_list) (hu2 : u_d ∈ units_list)
    (hdt : 0 < dtv) (hdur : 0 < durv)
    (hnd : (nuclides.map Prod.fst).Nodup)
    (hfresh : ∀ e ∈ nuclides, (e : String × Nuclide).2.decay_data = [(0, e.2.n_0)])
    (s : DecaySolver)
    (hmk : DecaySolver.make (some nuclides) (some dtv) (some u_t)
      (some durv) (some u_d) = .ok s) :
    ∀ e ∈ nuclides, ∃ nuc,
      dictLookup (calc_euler_decay s).nuclides e.1 = some nuc ∧
      nuc.decay_data.map Prod.fst = s.times_list ∧
      nuc.decay_data.length
        = (⌊(durv * conv_factor u_d) / (dtv * conv_factor u_t)⌋).toNat + 1 ∧
      s.times_list = (List.range
          ((⌊(durv * conv_factor u_d) / (dtv * conv_factor u_t)⌋).toNat + 1)).map
        (fun i : ℕ => (i : ℚ) * (dtv * conv_factor u_t)) := by
  have hdts : 0 < convert_time u_t dtv := by
    rw [convert_time_eq]
    exact mul_pos hdt (conv_factor_pos u_t hu1)
  have hdurs : 0 < convert_time u_d durv := by
    rw [convert_time_eq]
    exact mul_pos hdur (conv_factor_pos u_d hu2)
  have hmk2 := make_ok nuclides dtv durv u_t u_d hu1 hu2 (by linarith) (ne_of_gt hdts)
  rw [hmk] at hmk2
  have hs := (Except.ok.injEq _ _).mp hmk2
  have hsn : s.nuclides = nuclides := by rw [hs]
  have hst : s.timestep = convert_time u_t dtv := by rw [hs]
  have hsi : s.iterations = truncQ (convert_time u_d durv / convert_time u_t dtv) := by
    rw [hs]
  have hstl : s.times_list = (List.range
      ((truncQ (convert_time u_d durv / convert_time u_t dtv)) + 1).toNat).map
      (fun i : ℕ => (i : ℚ) * convert_time u_t dtv) := by
    rw [hs]
  have htr : truncQ (convert_time u_d durv / convert_time u_t dtv)
      = ⌊(durv * conv_factor u_d) / (dtv * conv_factor u_t)⌋ := by
    rw [truncQ_nonneg _ (le_of_lt (div_pos hdurs hdts)), convert_time_eq, convert_time_eq]
  have hit : 0 ≤ s.iterations := by
    rw [hsi, htr]
    exact Int.floor_nonneg.mpr (le_of_lt (div_pos (by rw [← convert_time_eq]; exact hdurs)
      (by rw [← convert_time_eq]; exact hdts)))
  intro e he
  have hinv := run_keys_invariant s (by rw [hsn]; exact hnd)
    (by rw [hstl, hsi, hst]) (by rw [hst]; exact hdts) hit s.iterations.toNat (le_refl _)
    e (by rw [hsn]; exact he) (hfresh e he)
  obtain ⟨nuc, hlk, hkeys⟩ := hinv
  have hiter_eq : s.iterations.toNat
      = (⌊(durv * conv_factor u_d) / (dtv * conv_factor u_t)⌋).toNat := by
    rw [hsi, htr]
  have htoN : (s.iterations + 1).toNat = s.iterations.toNat + 1 := by omega
  have htl : s.times_list = (List.range (s.iterations.toNat + 1)).map
      (fun i : ℕ => (i : ℚ) * s.timestep) := by
    rw [hstl, hst, ← hsi, htoN]
  refine ⟨nuc, ?_, ?_, ?_, ?_⟩
  · show dictLookup (stepsUpTo s s.iterations.toNat) e.1 = some nuc
    exact hlk
  · rw [hkeys, htl]
  · have := congrArg List.length hkeys
    simpa [hiter_eq] using this
  · rw [htl, hiter_eq]
    rw [show s.timestep = dtv * conv_factor u_t from by rw [hst, convert_time_eq]]

/-! ### Series-compiler lemmas -/

/-- Column read on the compiled table. -/
def colLookup (t : DecayTable) (n : String) : Option (List ℚ) :=
  (t.value_cols.find? (fun e => e.1 = n)).map Prod.snd

/-- `setCol` does not touch the time column. -/
lemma setCol_time (t : DecayTable) (n : String) (v : List ℚ) :
    (setCol t n v).time_col = t.time_col ∧ (setCol t n v).time_col_name = t.time_col_name := by
  unfold setCol
  split <;> exact ⟨rfl, rfl⟩

/-- `setCol` on a present column keeps the column names, in order. -/
lemma setCol_keys (t : DecayTable) (n : String) (v : List ℚ)
    (h : n ∈ t.value_cols.map Prod.fst) :
    (setCol t n v).value_cols.map Prod.fst = t.value_cols.map Prod.fst := by
  unfold setCol
  have hsome : (t.value_cols.find? (fun e => e.1 = n)).isSome := by
    rw [List.find?_isSome]
    obtain ⟨e, he, hk⟩ := List.mem_map.mp h
    exact ⟨e, he, by simp [hk]⟩
  rw [if_pos hsome]
  show (t.value_cols.map _).map Prod.fst = _
  rw [List.map_map]
  apply List.map_congr_left
  intro e _
  by_cases hk : e.1 = n <;> simp [hk]

/-- Reading back the column just written. -/
lemma colLookup_setCol_self (t : DecayTable) (n : String) (v : List ℚ)
    (h : n ∈ t.value_cols.map Prod.fst) :
    colLookup (setCol t n v) n = some v := by
  unfold setCol
  have hsome : (t.value_cols.find? (fun e => e.1 = n)).isSome := by
    rw [List.find?_isSome]
    obtain ⟨e, he, hk⟩ := List.mem_map.mp h
    exact ⟨e, he, by simp [hk]⟩
  rw [if_pos hsome]
  unfold colLookup
  rw [show ∀ tv : List (String × List ℚ), (({ t with value_cols := tv } : DecayTable)).value_cols = tv from fun tv => rfl]
  rw [find_key_map (fun e => if e.1 = n then (e.1, v) else e) (fun e => by by_cases hk : e.1 = n <;> simp [hk]) t.value_cols n]
  obtain ⟨e0, he0⟩ := Option.isSome_iff_exists.mp hsome
  have hk0 : e0.1 = n := by simpa using List.find?_some he0
  rw [he0]
  simp [hk0]

/-- Writing one column leaves every other column unchanged. -/
lemma colLookup_setCol_other (t : DecayTable) (n m : String) (v : List ℚ)
    (hk : m ≠ n) : colLookup (setCol t n v) m = colLookup t m := by
  unfold setCol colLookup
  split
  · rw [show ∀ tv : List (String × List ℚ), (({ t with value_cols := tv } : DecayTable)).value_cols = tv from fun tv => rfl]
    rw [find_key_map (fun e => if e.1 = n then (e.1, v) else e) (fun e => by by_cases hke : e.1 = n <;> simp [hke]) t.value_cols m]
    cases hf : t.value_cols.find? (fun e => e.1 = m) with
    | none => rfl
    | some e =>
      have hkm : e.1 = m := by simpa using List.find?_some hf
      have : ¬ e.1 = n := by rw [hkm]; exact hk
      simp [this]
  · rw [show ∀ tv : List (String × List ℚ), (({ t with value_cols := tv } : DecayTable)).value_cols = tv from fun tv => rfl]
    rw [List.find?_append]
    have : ([(n, v)].find? (fun e => e.1 = m)) = none := by
      simp [Ne.symm hk]
    rw [this]
    cases t.value_cols.find? (fun e => e.1 = m) <;> rfl

/-- The column-write fold of `compile_data`, abbreviated. -/
def foldCols (l : List Nuclide) (t : DecayTable) : DecayTable :=
  l.foldl (fun d x => setCol d x.name (x.decay_data.map Prod.snd)) t

/-- Columns whose name is written by no nuclide of the fold are unchanged. -/
lemma foldCols_frame (l : List Nuclide) :
    ∀ (t : DecayTable) (m : String), (∀ nuc ∈ l, nuc.name ≠ m) →
    colLookup (foldCols l t) m = colLookup t m := by
  induction l with
  | nil => intro t m _; rfl
  | cons x l ih =>
    intro t m hm
    show colLookup (foldCols l (setCol t x.name _)) m = _
    rw [ih _ m (fun nuc hn => hm nuc (List.mem_cons_of_mem x hn))]
    exact colLookup_setCol_other _ _ _ _ (fun he => hm x (List.mem_cons_self x l) he.symm)

/-- The fold preserves the time column. -/
lemma foldCols_time (l : List Nuclide) :
    ∀ t : DecayTable, (foldCols l t).time_col = t.time_col
      ∧ (foldCols l t).time_col_name = t.time_col_name := by
  induction l with
  | nil => intro t; exact ⟨rfl, rfl⟩
  | cons x l ih =>
    intro t
    constructor
    · show (foldCols l (setCol t x.name _)).time_col = _
      rw [(ih _).1, (setCol_time t x.name _).1]
    · show (foldCols l (setCol t x.name _)).time_col_name = _
      rw [(ih _).2, (setCol_time t x.name _).2]

/-- The fold preserves the column names when every written name exists. -/
lemma foldCols_keys (l : List Nuclide) :
    ∀ t : DecayTable, (∀ nuc ∈ l, nuc.name ∈ t.value_cols.map Prod.fst) →
    (foldCols l t).value_cols.map Prod.fst = t.value_cols.map Prod.fst := by
  induction l with
  | nil => intro t _; rfl
  | cons x l ih =>
    intro t hmem
    show (foldCols l (setCol t x.name _)).value_cols.map Prod.fst = _
    rw [ih _ (fun nuc hn => by
      rw [setCol_keys t x.name _ (hmem x (List.mem_cons_self x l))]
      exact hmem nuc (List.mem_cons_of_mem x hn))]
    exact setCol_keys t x.name _ (hmem x (List.mem_cons_self x l))

/-- After the fold, every nuclide's column holds exactly its series
values (nodup names, all columns pre-existing). -/
lemma foldCols_lookup (l : List Nuclide) :
    ∀ t : DecayTable, (l.map Nuclide.name).Nodup →
    (∀ nuc ∈ l, nuc.name ∈ t.value_cols.map Prod.fst) →
    ∀ nuc ∈ l, colLookup (foldCols l t) nuc.name = some (nuc.decay_data.map Prod.snd) := by
  induction l with
  | nil => intro t _ _ nuc hn; exact absurd hn (List.not_mem_nil nuc)
  | cons x l ih =>
    intro t hnd hmem nuc hn
    rw [List.map_cons, List.nodup_cons] at hnd
    rcases List.mem_cons.mp hn with rfl | hmem2
    · show colLookup (foldCols l (setCol t nuc.name _)) nuc.name = _
      rw [foldCols_frame l _ nuc.name (fun y hy hne => hnd.1 (hne ▸ List.mem_map_of_mem Nuclide.name hy))]
      exact colLookup_setCol_self t nuc.name _ (hmem nuc (List.mem_cons_self nuc l))
    · show colLookup (foldCols l (setCol t x.name _)) nuc.name = _
      exact ih _ hnd.2 (fun y hy => by
        rw [setCol_keys t x.name _ (hmem x (List.mem_cons_self x l))]
        exact hmem y (List.mem_cons_of_mem x hy)) nuc hmem2

/-- The compile fold on a list containing a misaligned nuclide errors out
naming the first offender. -/
lemma compile_fold_error (tl : List ℚ) (l : List Nuclide) :
    ∀ df : DecayTable, (∃ nuc ∈ l, nuc.decay_data.map Prod.fst ≠ tl) →
    ∃ off ∈ l, off.decay_data.map Prod.fst ≠ tl ∧
      l.foldlM (fun df nuc =>
        if nuc.decay_data.map Prod.fst ≠ tl then
          Except.error (misalignMsg nuc.name)
        else Except.ok (setCol df nuc.name (nuc.decay_data.map Prod.snd))) df
        = Except.error (misalignMsg off.name) := by
  induction l with
  | nil => intro df h; simp at h
  | cons x l ih =>
    intro df hbad
    by_cases hx : x.decay_data.map Prod.fst ≠ tl
    · refine ⟨x, List.mem_cons_self x l, hx, ?_⟩
      rw [List.foldlM_cons, if_pos hx]
      rfl
    · have hbad2 : ∃ nuc ∈ l, nuc.decay_data.map Prod.fst ≠ tl := by
        rcases hbad with ⟨nuc, hn, hne⟩
        rcases List.mem_cons.mp hn with rfl | hmem
        · exact absurd hne hx
        · exact ⟨nuc, hmem, hne⟩
      obtain ⟨off, hoff, hne, heq⟩ := ih (setCol df x.name (x.decay_data.map Prod.snd)) hbad2
      refine ⟨off, List.mem_cons_of_mem x hoff, hne, ?_⟩
      rw [List.foldlM_cons, if_neg hx]
      show (Except.ok _ >>= _) = _
      rw [show ∀ (a : DecayTable) (f : DecayTable → Except String DecayTable), (Except.ok a >>= f) = f a from fun a f => rfl]
      exact heq

/-- The compile fold on an aligned list succeeds with the column fold. -/
lemma compile_fold_ok (tl : List ℚ) (l : List Nuclide) :
    ∀ df : DecayTable, (∀ nuc ∈ l, nuc.decay_data.map Prod.fst = tl) →
    l.foldlM (fun df nuc =>
      if nuc.decay_data.map Prod.fst ≠ tl then
        Except.error (misalignMsg nuc.name)
      else Except.ok (setCol df nuc.name (nuc.decay_data.map Prod.snd))) df
      = Except.ok (foldCols l df) := by
  induction l with
  | nil => intro df _; rfl
  | cons x l ih =>
    intro df hall
    rw [List.foldlM_cons, if_neg (by simp [hall x (List.mem_cons_self x l)])]
    show (Except.ok _ >>= _) = _
    rw [show ∀ (a : DecayTable) (f : DecayTable → Except String DecayTable), (Except.ok a >>= f) = f a from fun a f => rfl]
    exact ih _ (fun nuc hn => hall nuc (List.mem_cons_of_mem x hn))

/-- C4. `compile_data` raises a data-misalignment error naming the
offending nuclide whenever some registered nuclide's ordered series keys
differ from the solver's canonical sample-time sequence, and then no
table is produced — the solver's compiled `decay_data` stays unchanged.
When every nuclide's key sequence matches (and the registered names are
distinct, the dict invariant), it produces a table with
`total_steps + 1` rows: one time column named for the caller-chosen
display unit and converted to it, and one value column per nuclide
holding that nuclide's series values in time order. -/
theorem compile_misalignment (s : DecaySolver)
    (hlen : s.times_list.length = (s.iterations + 1).toNat) :
    ((∃ nuc ∈ s.nuclides.map Prod.snd, nuc.decay_data.map Prod.fst ≠ s.times_list) →
      ∃ off ∈ s.nuclides.map Prod.snd, off.decay_data.map Prod.fst ≠ s.times_list ∧
        compile_data s = .error (misalignMsg off.name) ∧
        compile_data_state s = s)
    ∧ ((∀ nuc ∈ s.nuclides.map Prod.snd, nuc.decay_data.map Prod.fst = s.times_list) →
      ((s.nuclides.map Prod.snd).map Nuclide.name).Nodup →
      ∃ t, compile_data s = .ok t ∧
        compile_data_state s = { s with decay_data := some t } ∧
        t.time_col.length = (s.iterations + 1).toNat ∧
        t.time_col_name = "time (" ++ s.duration_unit ++ ")" ∧
        t.time_col = (if s.duration_unit ≠ "seconds" then
            ((List.range (s.iterations + 1).toNat).map
              (fun i : ℕ => (i : ℚ) * s.timestep)).map
              (fun x => x / (time_conversions s.duration_unit).getD 0)
          else (List.range (s.iterations + 1).toNat).map
            (fun i : ℕ => (i : ℚ) * s.timestep)) ∧
        t.value_cols.map Prod.fst = (s.nuclides.map Prod.snd).map Nuclide.name ∧
        ∀ nuc ∈ s.nuclides.map Prod.snd,
          colLookup t nuc.name = some (nuc.decay_data.map Prod.snd) ∧
          (nuc.decay_data.map Prod.snd).length = (s.iterations + 1).toNat) := by
  constructor
  · intro hbad
    obtain ⟨off, hoff, hne, heq⟩ :=
      compile_fold_error s.times_list (s.nuclides.map Prod.snd) (make_dataframe s) hbad
    refine ⟨off, hoff, hne, heq, ?_⟩
    unfold compile_data_state
    rw [show compile_data s = Except.error (misalignMsg off.name) from heq]
  · intro hall hnd
    have hok := compile_fold_ok s.times_list (s.nuclides.map Prod.snd) (make_dataframe s) hall
    have hmdfkeys : (make_dataframe s).value_cols.map Prod.fst
        = (s.nuclides.map Prod.snd).map Nuclide.name := by
      unfold make_dataframe
      rw [List.map_map, List.map_map, List.map_map]
      rfl
    have hmem : ∀ nuc ∈ s.nuclides.map Prod.snd,
        nuc.name ∈ (make_dataframe s).value_cols.map Prod.fst := by
      intro nuc hn
      rw [hmdfkeys]
      exact List.mem_map_of_mem Nuclide.name hn
    refine ⟨foldCols (s.nuclides.map Prod.snd) (make_dataframe s), hok, ?_, ?_, ?_, ?_, ?_, ?_⟩
    · unfold compile_data_state
      rw [show compile_data s = Except.ok (foldCols (s.nuclides.map Prod.snd) (make_dataframe s)) from hok]
    · rw [(foldCols_time _ _).1]
      show (if s.duration_unit ≠ "seconds" then _ else _ : List ℚ).length = _
      split <;> simp
    · rw [(foldCols_time _ _).2]
      rfl
    · rw [(foldCols_time _ _).1]
      rfl
    · rw [foldCols_keys _ _ hmem, hmdfkeys]
    · intro nuc hn
      refine ⟨foldCols_lookup _ _ hnd hmem nuc hn, ?_⟩
      rw [List.length_map, ← List.length_map nuc.decay_data Prod.fst, hall nuc hn, hlen]

/-! ### Construction validation (solver and nuclide) -/

/-- `Bool`-valued success test for `Except` results. -/
def exceptOk {α : Type} (x : Except String α) : Bool :=
  match x with
  | .ok _ => true
  | .error _ => false

/-- A timestep of zero converts to zero in any unit. -/
lemma convert_time_zero (u : String) : convert_time u 0 = 0 := by
  unfold convert_time
  split <;> simp

/-- C5 counterexample: the claim says construction fails for every
non-strictly-positive timestep, but a solver built with timestep `-1`
seconds is accepted without any error. -/
theorem solver_negative_timestep_counterexample :
    exceptOk (DecaySolver.make (some []) (some (-1)) (some "seconds")
      (some 1) (some "seconds")) = true := by decide

/-- C5, amended. Construction raises the missing-parameter errors
(timestep unit, timestep, duration unit, duration) and the invalid-unit
errors exactly as claimed, and rejects every non-positive duration; but
the timestep's sign is never validated: a zero timestep fails only later,
with a division-by-zero error while computing the iteration count, and a
negative timestep is accepted without any error. -/
theorem solver_construction_validation :
    (∀ n ts d du, DecaySolver.make n ts none d du = .error "Must provide timestep units")
    ∧ (∀ n ts d du u, u ∉ units_list →
        DecaySolver.make n ts (some u) d du = .error "Timestep unit is not valid")
    ∧ (∀ n d du u, u ∈ units_list →
        DecaySolver.make n none (some u) d du = .error "Must provide timestep")
    ∧ (∀ n ts u_t, u_t ∈ units_list → ∀ d,
        DecaySolver.make n (some ts) (some u_t) d none = .error "Must provide duration unit")
    ∧ (∀ n ts u_t u_d, u_t ∈ units_list → u_d ∉ units_list → ∀ d,
        DecaySolver.make n (some ts) (some u_t) d (some u_d)
          = .error "duration unit is not valid")
    ∧ (∀ n ts u_t u_d, u_t ∈ units_list → u_d ∈ units_list →
        DecaySolver.make n (some ts) (some u_t) none (some u_d)
          = .error "Must provide duration")
    ∧ (∀ n ts u_t u_d d, u_t ∈ units_list → u_d ∈ units_list → d ≤ 0 →
        DecaySolver.make n (some ts) (some u_t) (some d) (some u_d)
          = .error "Duration must be positive")
    ∧ (∀ n u_t u_d d, u_t ∈ units_list → u_d ∈ units_list → ¬ d ≤ 0 →
        DecaySolver.make n (some 0) (some u_t) (some d) (some u_d)
          = .error "ZeroDivisionError: float division by zero")
    ∧ (∀ reg ts u_t u_d d, u_t ∈ units_list → u_d ∈ units_list → ts < 0 → ¬ d ≤ 0 →
        ∃ s, DecaySolver.make (some reg) (some ts) (some u_t) (some d) (some u_d) = .ok s) := by
  refine ⟨?_, ?_, ?_, ?_, ?_, ?_, ?_, ?_, ?_⟩
  · intro n ts d du
    rfl
  · intro n ts d du u hu
    simp [DecaySolver.make, hu, bind, Except.bind]
  · intro n d du u hu
    simp [DecaySolver.make, hu, bind, Except.bind]
  · intro n ts u_t hu d
    simp [DecaySolver.make, hu, bind, Except.bind]
  · intro n ts u_t u_d hu1 hu2 d
    simp [DecaySolver.make, hu1, hu2, bind, Except.bind]
  · intro n ts u_t u_d hu1 hu2
    simp [DecaySolver.make, hu1, hu2, bind, Except.bind]
  · intro n ts u_t u_d d hu1 hu2 hd
    simp [DecaySolver.make, hu1, hu2, hd, bind, Except.bind]
  · intro n u_t u_d d hu1 hu2 hd
    simp [DecaySolver.make, hu1, hu2, hd, convert_time_zero, bind, Except.bind]
  · intro reg ts u_t u_d d hu1 hu2 hts hd
    have hne : convert_time u_t ts ≠ 0 := by
      rw [convert_time_eq]
      exact ne_of_lt (mul_neg_of_neg_of_pos hts (conv_factor_pos u_t hu1))
    exact ⟨_, make_ok reg ts d u_t u_d hu1 hu2 hd hne⟩

/-- `Nuclide._calc_half_life` on a recognized unit converts by the table. -/
lemma calc_half_life_ok (u : String) (hu : u ∈ units_list) (hl : ℚ) :
    calc_half_life u hl = .ok (hl * conv_factor u) := by
  fin_cases hu <;> simp [calc_half_life, conv_factor, time_conversions, units_list]

/-- `Nuclide.__init__` on recognized units, fully characterized. -/
lemma nuclide_make_ok (name : String) (hl : ℚ) (parents : Option (List String))
    (pu hu : String) (hpu : pu ∈ units_list) (hhu : hu ∈ units_list) (n0 epr : ℚ) :
    Nuclide.make name hl parents pu hu n0 epr = .ok
      { name := name, parents := parents.getD [], n_t := n0, n_0 := n0,
        half_life := hl * conv_factor hu,
        decay_const := ln2 / (hl * conv_factor hu),
        external_prod_rate := epr / conv_factor pu,
        decay_data := [(0, n0)] } := by
  unfold Nuclide.make
  rw [calc_half_life_ok hu hhu hl]
  fin_cases hpu <;> simp [conv_factor, time_conversions, bind, Except.bind]

/-- C6 counterexample: the claim says a non-positive half-life is
rejected at construction, but a nuclide with half-life `-1` seconds is
accepted without any error. -/
theorem nuclide_negative_half_life_counterexample :
    exceptOk (Nuclide.make "X" (-1) none "seconds" "seconds" 0 0) = true := by decide

/-- C6, amended. Construction does not reject a non-positive half-life:
only the unit strings are validated, the construction succeeds, and the
decay-constant division `ln 2 / half_life_seconds` is evaluated with the
non-positive divisor (under the source's float semantics a zero divisor
yields infinity with a warning, not an exception; a negative half-life
yields a negative decay constant, as proved here). -/
theorem nuclide_half_life_unguarded (name : String) (hl : ℚ) (hhl : hl ≤ 0)
    (u : String) (hu : u ∈ units_list) (parents : Option (List String)) (n0 epr : ℚ) :
    ∃ nuc, Nuclide.make name hl parents "seconds" u n0 epr = .ok nuc ∧
      nuc.half_life = hl * conv_factor u ∧
      nuc.decay_const = ln2 / (hl * conv_factor u) ∧
      (hl < 0 → nuc.decay_const < 0) := by
  refine ⟨_, nuclide_make_ok name hl parents "seconds" u (by decide) hu n0 epr, rfl, rfl, ?_⟩
  intro hneg
  show ln2 / (hl * conv_factor u) < 0
  apply div_neg_of_pos_of_neg
  · norm_num [ln2]
  · exact mul_neg_of_neg_of_pos hneg (conv_factor_pos u hu)

/-! ### Unresolved parents (C7) and registry overwrite (C10) -/

/-- The registry with the name `q` removed from every parents list. -/
def dropParent (reg : List (String × Nuclide)) (q : String) :
    List (String × Nuclide) :=
  reg.map (fun e => (e.1, { e.2 with parents := e.2.parents.filter (fun p => p ≠ q) }))

/-- Parents lists do not enter the flux view. -/
lemma regFlux_dropParent (reg : List (String × Nuclide)) (q : String) :
    regFlux (dropParent reg q) = regFlux reg := by
  unfold regFlux dropParent
  rw [List.map_map]
  rfl

/-- C7. During every step of `calc_euler_decay`, a parent name that does
not resolve to a registered nuclide contributes exactly zero to the
parent flux, and the whole update is computed as if that parent were
absent — the list comprehension filters it out, so no error can be
raised: the parent flux over any parents list equals the flux with the
unresolved name deleted, the single-nuclide Euler update is unchanged by
deleting it, and a full step produces the same populations and series on
the registry with the name deleted from every parents list. -/
theorem unresolved_parent_contributes_zero (reg : List (String × Nuclide))
    (q : String) (hq : dictLookup reg q = none) :
    (∀ ps : List String, parentFlux reg ps = parentFlux reg (ps.filter (fun p => p ≠ q)))
    ∧ (∀ (dt : ℚ) (nuc : Nuclide), eulerNext reg dt nuc
        = eulerNext reg dt { nuc with parents := nuc.parents.filter (fun p => p ≠ q) })
    ∧ (∀ (dt : ℚ) (tl : List ℚ) (idx : ℕ) (name : String),
        (reg.map Prod.fst).Nodup →
        Option.map (fun n : Nuclide => (n.n_t, n.decay_data))
            (dictLookup (calcEulerStep dt tl idx reg) name)
          = Option.map (fun n : Nuclide => (n.n_t, n.decay_data))
            (dictLookup (calcEulerStep dt tl idx (dropParent reg q)) name)) := by
  have hflux : ∀ ps : List String,
      parentFlux reg ps = parentFlux reg (ps.filter (fun p => p ≠ q)) := by
    intro ps
    unfold parentFlux
    induction ps with
    | nil => rfl
    | cons p ps ih =>
      by_cases hp : p = q
      · subst hp
        rw [List.filterMap_cons, hq, List.filter_cons_of_neg (by simp)]
        exact ih
      · rw [List.filterMap_cons, List.filter_cons_of_pos (by simp [hp]), List.filterMap_cons]
        cases hl : dictLookup reg p with
        | none => exact ih
        | some v => simp only [List.map_cons, List.sum_cons, ih]
  have hnext : ∀ (dt : ℚ) (nuc : Nuclide), eulerNext reg dt nuc
      = eulerNext reg dt { nuc with parents := nuc.parents.filter (fun p => p ≠ q) } := by
    intro dt nuc
    unfold eulerNext
    rw [← hflux nuc.parents]
  have hfindF : ∀ name : String, (dropParent reg q).find? (fun e => e.1 = name)
      = (reg.find? (fun e => e.1 = name)).map
        (fun e => (e.1, { e.2 with parents := e.2.parents.filter (fun p => p ≠ q) })) :=
    fun name => find_key_map (fun e : String × Nuclide => (e.1, { e.2 with parents := e.2.parents.filter (fun p => p ≠ q) })) (fun e => rfl) reg name
  refine ⟨hflux, hnext, ?_⟩
  intro dt tl idx name hnd
  have hndF : ((dropParent reg q).map Prod.fst).Nodup := by
    unfold dropParent
    rw [List.map_map]
    exact hnd
  rw [calcEulerStep_spec _ _ _ _ hnd, calcEulerStep_spec _ _ _ _ hndF]
  unfold eulerStepSpec
  rw [dictLookup_map (stepEntry reg dt (tl.getD idx 0)) (fun e => rfl) reg name]
  rw [dictLookup_map (stepEntry (dropParent reg q) dt (tl.getD idx 0)) (fun e => rfl)
    (dropParent reg q) name]
  rw [hfindF name]
  cases hf : reg.find? (fun e => e.1 = name) with
  | none => rfl
  | some e =>
    have hE : eulerNext (dropParent reg q) dt
        { e.2 with parents := e.2.parents.filter (fun p => p ≠ q) }
        = eulerNext reg dt e.2 := by
      rw [eulerNext_congr (dropParent reg q) reg (regFlux_dropParent reg q)]
      exact (hnext dt e.2).symm
    simp only [Option.map_some']
    unfold stepEntry
    rw [hE]

/-- C10. Calling `add_nuclide` with a name already registered raises no
error (given recognized units, the only other failure source) and
silently replaces the previous nuclide: the registry keys are unchanged
(still exactly one entry per name, in the same order), the name now maps
to the newly constructed nuclide, and every other name's entry is
untouched — the earlier nuclide's parameters and series are discarded. -/
theorem add_nuclide_overwrites (s : DecaySolver) (name : String)
    (parents : List String) (hl n0 epr : ℚ) (hu pu : String)
    (hhu : hu ∈ units_list) (hpu : pu ∈ units_list)
    (hmem : name ∈ s.nuclides.map Prod.fst) :
    ∃ s2 entry,
      add_nuclide s name parents hl n0 epr hu pu = .ok s2 ∧
      Nuclide.make name hl (some parents) pu hu n0 epr = .ok entry ∧
      dictLookup s2.nuclides name = some entry ∧
      s2.nuclides.map Prod.fst = s.nuclides.map Prod.fst ∧
      (∀ k, k ≠ name → dictLookup s2.nuclides k = dictLookup s.nuclides k) := by
  have hmk := nuclide_make_ok name hl (some parents) pu hu hpu hhu n0 epr
  have hsome : (s.nuclides.find? (fun e => e.1 = name)).isSome := by
    rw [List.find?_isSome]
    obtain ⟨e, he, hk⟩ := List.mem_map.mp hmem
    exact ⟨e, he, by simp [hk]⟩
  refine ⟨{ s with nuclides := dictSet s.nuclides name { name := name, parents := (some parents).getD [], n_t := n0, n_0 := n0, half_life := hl * conv_factor hu, decay_const := ln2 / (hl * conv_factor hu), external_prod_rate := epr / conv_factor pu, decay_data := [(0, n0)] } }, _, ?_, hmk, ?_, ?_, ?_⟩
  · unfold add_nuclide
    rw [hmk]
    rfl
  · show dictLookup (dictSet s.nuclides name _) name = _
    unfold dictSet
    rw [if_pos hsome]
    unfold dictLookup
    rw [find_key_map (fun e => if e.1 = name then (e.1, _) else e)
      (fun e => by by_cases hk : e.1 = name <;> simp [hk]) s.nuclides name]
    obtain ⟨e0, he0⟩ := Option.isSome_iff_exists.mp hsome
    have hk0 : e0.1 = name := by simpa using List.find?_some he0
    rw [he0]
    simp [hk0]
  · show (dictSet s.nuclides name _).map Prod.fst = _
    unfold dictSet
    rw [if_pos hsome, List.map_map]
    apply List.map_congr_left
    intro e _
    by_cases hk : e.1 = name <;> simp [hk]
  · intro k hk
    show dictLookup (dictSet s.nuclides name _) k = _
    unfold dictSet
    rw [if_pos hsome]
    unfold dictLookup
    rw [find_key_map (fun e => if e.1 = name then (e.1, _) else e)
      (fun e => by by_cases hke : e.1 = name <;> simp [hke]) s.nuclides k]
    cases hf : s.nuclides.find? (fun e => e.1 = k) with
    | none => rfl
    | some e =>
      have hkm : e.1 = k := by simpa using List.find?_some hf
      have : ¬ e.1 = name := by rw [hkm]; exact hk
      simp [this]

/-! ### Convergence-checker lemmas (C3, C9) -/

/-- A fold of `max` never drops below its starting accumulator. -/
lemma le_foldl_max {α : Type} (f : ℚ → α → ℚ) (h : ∀ a x, a ≤ f a x) :
    ∀ (l : List α) (acc : ℚ), acc ≤ l.foldl f acc := by
  intro l
  induction l with
  | nil => intro acc; exact le_refl acc
  | cons x l ih => intro acc; exact le_trans (h acc x) (ih (f acc x))

/-- The infinity-norm error of the convergence loop is never negative. -/
lemma error_inf_nonneg (c1 c2 : List (String × Nuclide)) : 0 ≤ error_inf_of c1 c2 := by
  unfold error_inf_of
  exact le_foldl_max _ (fun a x => le_max_left a _) _ 0

/-- C3. One iteration of `check_convergence`, fully characterized: the
two sub-runs take the caller's nuclide set at the current `dt` and,
independently, at `dt/2` over the same duration; when the infinity norm
over the shared nuclides of the last recorded populations is strictly
below the tolerance the loop stops, declaring convergence at the finer
timestep `dt/2` with that error; otherwise the loop repeats with `dt`
halved and nothing else changed. -/
theorem convergence_iteration (tol dt stop : ℚ)
    (nuclides : List (String × Nuclide)) (fuel : ℕ)
    (c1 c2 : List (String × Nuclide))
    (h1 : solver_run_conv nuclides dt stop = .ok c1)
    (h2 : solver_run_conv nuclides (dt / 2) stop = .ok c2) :
    (error_inf_of c1 c2 < tol →
      check_convergence_loop tol nuclides dt stop (fuel + 1)
        = .ok (some (dt / 2, error_inf_of c1 c2)))
    ∧ (¬ error_inf_of c1 c2 < tol →
      check_convergence_loop tol nuclides dt stop (fuel + 1)
        = check_convergence_loop tol nuclides (dt / 2) stop fuel) := by
  constructor
  · intro hlt
    rw [check_convergence_loop]
    simp [h1, h2, hlt, bind, Except.bind]
  · intro hge
    rw [check_convergence_loop]
    simp [h1, h2, hge, bind, Except.bind]

/-- C9. The step-halving loop has no iteration cap and no
minimum-timestep floor: for every tolerance ≤ 0 the stop condition
(infinity-norm error strictly below the tolerance) can never hold, since
the computed error is always ≥ 0, and so no number of iterations ever
declares convergence — the `while True` loop runs forever (or aborts
with a propagated solver exception). -/
theorem convergence_never_for_nonpositive_tolerance (tol : ℚ) (htol : tol ≤ 0)
    (nuclides : List (String × Nuclide)) (stop : ℚ) :
    (∀ c1 c2 : List (String × Nuclide), 0 ≤ error_inf_of c1 c2)
    ∧ (∀ (fuel : ℕ) (dt : ℚ) (r : ℚ × ℚ),
        check_convergence_loop tol nuclides dt stop fuel ≠ .ok (some r)) := by
  refine ⟨fun c1 c2 => error_inf_nonneg c1 c2, ?_⟩
  intro fuel
  induction fuel with
  | zero =>
    intro dt r h
    rw [check_convergence_loop] at h
    exact Option.noConfusion ((Except.ok.injEq _ _).mp h)
  | succ fuel ih =>
    intro dt r h
    rw [check_convergence_loop] at h
    cases hc1 : solver_run_conv nuclides dt stop with
    | error e =>
      rw [hc1] at h
      exact Except.noConfusion (show Except.error e = Except.ok (some r) from h)
    | ok c1 =>
      rw [hc1] at h
      cases hc2 : solver_run_conv nuclides (dt / 2) stop with
      | error e =>
        rw [hc2] at h
        exact Except.noConfusion (show Except.error e = Except.ok (some r) from h)
      | ok c2 =>
        rw [hc2] at h
        have hnl : ¬ error_inf_of c1 c2 < tol :=
          not_lt.mpr (le_trans htol (error_inf_nonneg c1 c2))
        simp only [bind, Except.bind] at h
        rw [if_neg hnl] at h
        exact ih (dt / 2) r h

/-! ### Heap-frame lemmas for the convergence checker (C8) -/

/-- Heap well-formedness: every allocated reference is below `fresh`. -/
def wfHeap (h : Heap) : Prop := ∀ r ∈ h.store.map Prod.fst, r < h.fresh

/-- Allocation does not disturb any other reference. -/
lemma heapGet_alloc_other (h : Heap) (n : Nuclide) (r : ℕ) (hne : r ≠ h.fresh) :
    heapGet (allocNuc h n).2 r = heapGet h r := by
  unfold allocNuc heapGet
  rw [List.find?_append]
  have : ([(h.fresh, n)].find? (fun e => e.1 = r)) = none := by
    simp [Ne.symm hne]
  rw [this]
  cases h.store.find? (fun e => e.1 = r) <;> rfl

/-- Mutation of one reference does not disturb any other. -/
lemma heapGet_set_other (h : Heap) (r : ℕ) (v : Nuclide) (r2 : ℕ) (hne : r2 ≠ r) :
    heapGet (heapSet h r v) r2 = heapGet h r2 := by
  unfold heapSet heapGet
  rw [find_key_map (fun e : ℕ × Nuclide => if e.1 = r then (e.1, v) else e)
    (fun e => by by_cases hk : e.1 = r <;> simp [hk]) h.store r2]
  cases hf : h.store.find? (fun e => e.1 = r2) with
  | none => rfl
  | some e =>
    have hk : e.1 = r2 := by simpa using List.find?_some hf
    have : ¬ e.1 = r := by rw [hk]; exact hne
    simp [this]

/-- `heapSet` keeps `fresh` and the stored reference set. -/
lemma heapSet_fresh (h : Heap) (r : ℕ) (v : Nuclide) :
    (heapSet h r v).fresh = h.fresh := rfl

/-- `heapSet` preserves well-formedness. -/
lemma heapSet_wf (h : Heap) (r : ℕ) (v : Nuclide) (hwf : wfHeap h) :
    wfHeap (heapSet h r v) := by
  intro r2 hr2
  unfold heapSet at hr2
  rw [show (({ h with store := h.store.map (fun e => if e.1 = r then (e.1, v) else e) } : Heap)).store = h.store.map (fun e => if e.1 = r then (e.1, v) else e) from rfl] at hr2
  rw [List.map_map] at hr2
  have : r2 ∈ h.store.map Prod.fst := by
    obtain ⟨e, he, hk⟩ := List.mem_map.mp hr2
    refine List.mem_map.mpr ⟨e, he, ?_⟩
    by_cases hek : e.1 = r
    · simpa [Function.comp, hek] using hk
    · simpa [Function.comp, hek] using hk
  exact hwf r2 this

/-- Deep copy only grows `fresh`. -/
lemma deepcopy_fresh_mono (d : List (String × ℕ)) :
    ∀ h : Heap, h.fresh ≤ (deepcopyDict h d).2.fresh := by
  induction d with
  | nil => intro h; exact le_refl _
  | cons a d ih =>
    intro h
    exact le_trans (Nat.le_succ h.fresh) (ih (allocNuc h _).2)

/-- Deep copy does not disturb references below the starting `fresh`. -/
lemma deepcopy_get_lt (d : List (String × ℕ)) :
    ∀ (h : Heap) (r : ℕ), r < h.fresh →
    heapGet (deepcopyDict h d).2 r = heapGet h r := by
  induction d with
  | nil => intro h r _; rfl
  | cons a d ih =>
    intro h r hr
    show heapGet (deepcopyDict (allocNuc h _).2 d).2 r = heapGet h r
    rw [ih _ r (lt_of_lt_of_le hr (Nat.le_succ _))]
    exact heapGet_alloc_other h _ r (Nat.ne_of_lt hr)

/-- Every reference a deep copy hands out is fresh: at or above the
starting `fresh` and below the final one. -/
lemma deepcopy_refs_range (d : List (String × ℕ)) :
    ∀ (h : Heap) (r : ℕ), r ∈ (deepcopyDict h d).1.map Prod.snd →
    h.fresh ≤ r ∧ r < (deepcopyDict h d).2.fresh := by
  induction d with
  | nil => intro h r hr; exact absurd hr (List.not_mem_nil r)
  | cons a d ih =>
    intro h r hr
    rw [show (deepcopyDict h (a :: d)).1 = (a.1, h.fresh) :: (deepcopyDict (allocNuc h _).2 d).1 from rfl] at hr
    rw [List.map_cons] at hr
    rcases List.mem_cons.mp hr with rfl | hmem
    · exact ⟨le_refl _, lt_of_lt_of_le (Nat.lt_succ_self _)
        (deepcopy_fresh_mono d (allocNuc h _).2)⟩
    · obtain ⟨h1, h2⟩ := ih (allocNuc h _).2 r hmem
      exact ⟨le_trans (Nat.le_succ _) h1, h2⟩

/-- Deep copy preserves well-formedness. -/
lemma deepcopy_wf (d : List (String × ℕ)) :
    ∀ h : Heap, wfHeap h → wfHeap (deepcopyDict h d).2 := by
  induction d with
  | nil => intro h hwf; exact hwf
  | cons a d ih =>
    intro h hwf
    apply ih
    intro r hr
    unfold allocNuc at hr
    rw [show (({ store := h.store ++ [(h.fresh, _)], fresh := h.fresh + 1 } : Heap)).store = h.store ++ [(h.fresh, (heapGet h a.2).getD defaultNuclide)] from rfl, List.map_append] at hr
    show r < h.fresh + 1
    rcases List.mem_append.mp hr with hmem | hmem
    · exact lt_trans (hwf r hmem) (Nat.lt_succ_self _)
    · simp at hmem
      omega

/-- The write-back loop does not disturb references outside its dict. -/
lemma writeDict_get_other (d : List (String × ℕ)) :
    ∀ (h : Heap) (vals : List (String × Nuclide)) (r : ℕ), r ∉ d.map Prod.snd →
    heapGet (writeDictH h d vals) r = heapGet h r := by
  induction d with
  | nil => intro h vals r _; rfl
  | cons a d ih =>
    intro h vals r hr
    rw [List.map_cons] at hr
    have hr1 : r ≠ a.2 := fun he => hr (by rw [he]; exact List.mem_cons_self _ _)
    have hr2 : r ∉ d.map Prod.snd := fun hm => hr (List.mem_cons_of_mem _ hm)
    cases hv : dictLookup vals a.1 with
    | none =>
      have hstep : writeDictH h (a :: d) vals = writeDictH h d vals := by
        unfold writeDictH
        rw [List.foldl_cons]
        simp [hv]
      rw [hstep]
      exact ih h vals r hr2
    | some v =>
      have hstep : writeDictH h (a :: d) vals = writeDictH (heapSet h a.2 v) d vals := by
        unfold writeDictH
        rw [List.foldl_cons]
        simp [hv]
      rw [hstep]
      rw [ih _ vals r hr2]
      exact heapGet_set_other h a.2 v r hr1

/-- The write-back loop keeps `fresh`. -/
lemma writeDict_fresh (d : List (String × ℕ)) :
    ∀ (h : Heap) (vals : List (String × Nuclide)),
    (writeDictH h d vals).fresh = h.fresh := by
  induction d with
  | nil => intro h vals; rfl
  | cons a d ih =>
    intro h vals
    cases hv : dictLookup vals a.1 with
    | none =>
      have hstep : writeDictH h (a :: d) vals = writeDictH h d vals := by
        unfold writeDictH
        rw [List.foldl_cons]
        simp [hv]
      rw [hstep]
      exact ih h vals
    | some v =>
      have hstep : writeDictH h (a :: d) vals = writeDictH (heapSet h a.2 v) d vals := by
        unfold writeDictH
        rw [List.foldl_cons]
        simp [hv]
      rw [hstep]
      exact ih _ vals

/-- The write-back loop preserves well-formedness. -/
lemma writeDict_wf (d : List (String × ℕ)) :
    ∀ (h : Heap) (vals : List (String × Nuclide)), wfHeap h →
    wfHeap (writeDictH h d vals) := by
  induction d with
  | nil => intro h vals hwf; exact hwf
  | cons a d ih =>
    intro h vals hwf
    cases hv : dictLookup vals a.1 with
    | none =>
      have hstep : writeDictH h (a :: d) vals = writeDictH h d vals := by
        unfold writeDictH
        rw [List.foldl_cons]
        simp [hv]
      rw [hstep]
      exact ih h vals hwf
    | some v =>
      have hstep : writeDictH h (a :: d) vals = writeDictH (heapSet h a.2 v) d vals := by
        unfold writeDictH
        rw [List.foldl_cons]
        simp [hv]
      rw [hstep]
      exact ih _ vals (heapSet_wf h a.2 v hwf)

/-- A solver sub-run only writes through its own dict. -/
lemma solver_run_heap_get_other (h : Heap) (d : List (String × ℕ)) (dt stop : ℚ)
    (r : ℕ) (hr : r ∉ d.map Prod.snd) :
    heapGet (solver_run_heap h d dt stop).2 r = heapGet h r := by
  unfold solver_run_heap
  cases DecaySolver.make (some (readDictH h d)) (some dt) (some "seconds")
      (some stop) (some "seconds") with
  | error e => rfl
  | ok s =>
    dsimp only
    cases compile_data (calc_euler_decay s) with
    | error e => exact writeDict_get_other d h (calc_euler_decay s).nuclides r hr
    | ok t => exact writeDict_get_other d h (calc_euler_decay s).nuclides r hr

/-- A solver sub-run keeps `fresh` and well-formedness. -/
lemma solver_run_heap_fresh_wf (h : Heap) (d : List (String × ℕ)) (dt stop : ℚ) :
    (solver_run_heap h d dt stop).2.fresh = h.fresh
    ∧ (wfHeap h → wfHeap (solver_run_heap h d dt stop).2) := by
  unfold solver_run_heap
  cases DecaySolver.make (some (readDictH h d)) (some dt) (some "seconds")
      (some stop) (some "seconds") with
  | error e => exact ⟨rfl, fun hw => hw⟩
  | ok s =>
    dsimp only
    cases compile_data (calc_euler_decay s) with
    | error e => exact ⟨writeDict_fresh d h (calc_euler_decay s).nuclides, writeDict_wf d h (calc_euler_decay s).nuclides⟩
    | ok t => exact ⟨writeDict_fresh d h (calc_euler_decay s).nuclides, writeDict_wf d h (calc_euler_decay s).nuclides⟩

/-- The whole convergence loop only ever touches references it allocated
itself: well-formedness is kept, `fresh` only grows, and every
pre-existing reference still dereferences to its original object. -/
lemma check_heap_frame (tol stop : ℚ) (d : List (String × ℕ)) :
    ∀ (fuel : ℕ) (h : Heap) (dt : ℚ), wfHeap h →
    wfHeap (check_convergence_heap tol stop fuel h d dt).2
    ∧ h.fresh ≤ (check_convergence_heap tol stop fuel h d dt).2.fresh
    ∧ (∀ r, r < h.fresh →
        heapGet (check_convergence_heap tol stop fuel h d dt).2 r = heapGet h r) := by
  intro fuel
  induction fuel with
  | zero =>
    intro h dt hwf
    exact ⟨hwf, le_refl _, fun r _ => rfl⟩
  | succ fuel ih =>
    intro h dt hwf
    have hw1 := deepcopy_wf d h hwf
    have hf1 := deepcopy_fresh_mono d h
    have hw2 := deepcopy_wf d (deepcopyDict h d).2 hw1
    have hf2 := deepcopy_fresh_mono d (deepcopyDict h d).2
    have hnotin1 : ∀ r, r < h.fresh → r ∉ (deepcopyDict h d).1.map Prod.snd := by
      intro r hr hmem
      have := (deepcopy_refs_range d h r hmem).1
      omega
    have hnotin2 : ∀ r, r < h.fresh →
        r ∉ (deepcopyDict (deepcopyDict h d).2 d).1.map Prod.snd := by
      intro r hr hmem
      have := (deepcopy_refs_range d (deepcopyDict h d).2 r hmem).1
      omega
    have hget12 : ∀ r, r < h.fresh →
        heapGet (deepcopyDict (deepcopyDict h d).2 d).2 r = heapGet h r := by
      intro r hr
      rw [deepcopy_get_lt d _ r (by omega), deepcopy_get_lt d h r hr]
    obtain ⟨hfr1, hwp1⟩ := solver_run_heap_fresh_wf
      (deepcopyDict (deepcopyDict h d).2 d).2 (deepcopyDict h d).1 dt stop
    rw [check_convergence_heap]
    cases hs1 : solver_run_heap (deepcopyDict (deepcopyDict h d).2 d).2
        (deepcopyDict h d).1 dt stop with
    | mk res1 h3 =>
      have hh3 : (solver_run_heap (deepcopyDict (deepcopyDict h d).2 d).2
          (deepcopyDict h d).1 dt stop).2 = h3 := by rw [hs1]
      have hw3 : wfHeap h3 := hh3 ▸ hwp1 hw2
      have hf3 : h.fresh ≤ h3.fresh := by
        rw [← hh3, hfr1]
        show h.fresh ≤ (deepcopyDict (deepcopyDict h d).2 d).2.fresh
        omega
      have hget3 : ∀ r, r < h.fresh → heapGet h3 r = heapGet h r := by
        intro r hr
        rw [← hh3, solver_run_heap_get_other _ _ _ _ r (hnotin1 r hr), hget12 r hr]
      obtain ⟨hfr2, hwp2⟩ := solver_run_heap_fresh_wf h3
        (deepcopyDict (deepcopyDict h d).2 d).1 (dt / 2) stop
      cases res1 with
      | error e =>
        exact ⟨hw3, hf3, hget3⟩
      | ok u =>
        dsimp only
        cases hs2 : solver_run_heap h3 (deepcopyDict (deepcopyDict h d).2 d).1
            (dt / 2) stop with
        | mk res2 h4 =>
          have hh4 : (solver_run_heap h3 (deepcopyDict (deepcopyDict h d).2 d).1
              (dt / 2) stop).2 = h4 := by rw [hs2]
          have hw4 : wfHeap h4 := hh4 ▸ hwp2 hw3
          have hf4 : h.fresh ≤ h4.fresh := by
            rw [← hh4, hfr2]
            exact hf3
          have hget4 : ∀ r, r < h.fresh → heapGet h4 r = heapGet h r := by
            intro r hr
            rw [← hh4, solver_run_heap_get_other _ _ _ _ r (hnotin2 r hr), hget3 r hr]
          cases res2 with
          | error e =>
            exact ⟨hw4, hf4, hget4⟩
          | ok u2 =>
            dsimp only
            split
            · exact ⟨hw4, hf4, hget4⟩
            · obtain ⟨hwr, hfr, hgr⟩ := ih h4 (dt / 2) hw4
              refine ⟨hwr, le_trans hf4 hfr, ?_⟩
              intro r hr
              rw [hgr r (by omega), hget4 r hr]

/-- C8. The convergence checker operates only on fresh deep copies made
anew in every iteration: in the heap model of Python object identity,
after `check_convergence` returns, every reference the caller's
dictionary holds still dereferences to its original `Nuclide` object
(`n_t`, `decay_data` and all physical parameters unchanged), and within
one iteration the two sub-runs' copies hold pairwise distinct
references — they share no mutable state. -/
theorem convergence_caller_isolation (tol stop dt : ℚ) (fuel : ℕ)
    (h : Heap) (d : List (String × ℕ)) (hwf : wfHeap h)
    (hd : ∀ r ∈ d.map Prod.snd, r < h.fresh) :
    (∀ e ∈ d, heapGet (check_convergence_heap tol stop fuel h d dt).2
        (Prod.snd e) = heapGet h (Prod.snd e))
    ∧ (∀ r1 ∈ (deepcopyDict h d).1.map Prod.snd,
        ∀ r2 ∈ (deepcopyDict (deepcopyDict h d).2 d).1.map Prod.snd, r1 ≠ r2) := by
  constructor
  · intro e he
    exact (check_heap_frame tol stop d fuel h dt hwf).2.2 e.2
      (hd e.2 (List.mem_map_of_mem Prod.snd he))
  · intro r1 h1 r2 h2
    have hr1 := (deepcopy_refs_range d h r1 h1).2
    have hr2 := (deepcopy_refs_range d (deepcopyDict h d).2 r2 h2).1
    omega

/-! ### Concrete fixtures for witnesses -/

/-- A one-second nuclide with no parents, series freshly seeded. -/
def nucA : Nuclide :=
  { name := "A", parents := [], n_t := 1, n_0 := 1, half_life := 1,
    decay_const := ln2, external_prod_rate := 0, decay_data := [(0, 1)] }

/-- A daughter of `nucA`, series freshly seeded. -/
def nucB : Nuclide :=
  { name := "B", parents := ["A"], n_t := 2, n_0 := 2, half_life := 2,
    decay_const := ln2 / 2, external_prod_rate := 0, decay_data := [(0, 2)] }

/-- A two-nuclide registry. -/
def regAB : List (String × Nuclide) := [("A", nucA), ("B", nucB)]

/-- A hand-rolled two-step solver state over `regAB`. -/
def solverAB : DecaySolver :=
  { nuclides := regAB, timestep := 1, timestep_unit := "seconds",
    duration := 2, duration_unit := "seconds", iterations := 2,
    times_list := [0, 1, 2], decay_data := none }

/-- A zero-step solver state over `regAB` (duration below one step). -/
def solverAB0 : DecaySolver :=
  { nuclides := regAB, timestep := 1, timestep_unit := "seconds",
    duration := 1 / 2, duration_unit := "seconds", iterations := 0,
    times_list := [0], decay_data := none }

/-- Witness for the C1 theorem at a concrete solver, step 1, nuclide A. -/
theorem euler_step_two_phase_witness :
    dictLookup (stepsUpTo solverAB 1) "A" = some
      { nucA with
          n_t := nucA.n_t + (parentFlux (stepsUpTo solverAB (1 - 1)) nucA.parents
            + nucA.external_prod_rate - nucA.decay_const * nucA.n_t) * solverAB.timestep,
          decay_data := dictSetQ nucA.decay_data (((1 : ℕ) : ℚ) * solverAB.timestep)
            (nucA.n_t + (parentFlux (stepsUpTo solverAB (1 - 1)) nucA.parents
              + nucA.external_prod_rate - nucA.decay_const * nucA.n_t) * solverAB.timestep) } :=
  euler_step_two_phase solverAB (by decide) (by simp [solverAB, List.range_succ])
    1 (by decide) (by decide) "A" nucA (by rfl)

/-- Witness for the C2 theorem: the two-step run over `regAB` built by
`DecaySolver.make` from timestep 1 s and duration 2 s. -/
theorem run_sample_count_witness :
    ∃ nuc, dictLookup (calc_euler_decay solverAB).nuclides ("A", nucA).1 = some nuc ∧
      nuc.decay_data.map Prod.fst = solverAB.times_list ∧
      nuc.decay_data.length
        = (⌊((2 : ℚ) * conv_factor "seconds") / ((1 : ℚ) * conv_factor "seconds")⌋).toNat + 1 ∧
      solverAB.times_list = (List.range
          ((⌊((2 : ℚ) * conv_factor "seconds") / ((1 : ℚ) * conv_factor "seconds")⌋).toNat + 1)).map
        (fun i : ℕ => (i : ℚ) * ((1 : ℚ) * conv_factor "seconds")) :=
  run_sample_count regAB 1 2 "seconds" "seconds" (by decide) (by decide)
    (by norm_num) (by norm_num) (by decide) (by decide) solverAB
    (by
      rw [make_ok regAB 1 2 "seconds" "seconds" (by decide) (by decide) (by norm_num)
        (by norm_num [convert_time])]
      refine congrArg Except.ok ?_
      have h1 : truncQ (2 : ℚ) = 2 := by norm_num [truncQ]
      simp [solverAB, convert_time, List.range_succ, h1])
    ("A", nucA) (List.mem_cons_self _ _)

/-- After a full run from freshly seeded series, every registry entry's
series keys equal the solver's sample-time list. -/
lemma run_all_keys (s : DecaySolver)
    (hnd : (s.nuclides.map Prod.fst).Nodup)
    (hts : s.times_list = (List.range (s.iterations + 1).toNat).map
      (fun j : ℕ => (j : ℚ) * s.timestep))
    (hdt : 0 < s.timestep) (hit : 0 ≤ s.iterations)
    (hfresh : ∀ e ∈ s.nuclides, (e : String × Nuclide).2.decay_data = [(0, e.2.n_0)]) :
    ∀ f ∈ stepsUpTo s s.iterations.toNat,
      (f : String × Nuclide).2.decay_data.map Prod.fst = s.times_list := by
  intro f hf
  have hkeys := stepsUpTo_keys s hnd s.iterations.toNat
  have hndk : ((stepsUpTo s s.iterations.toNat).map Prod.fst).Nodup := by
    rw [hkeys]; exact hnd
  have hlk : dictLookup (stepsUpTo s s.iterations.toNat) f.1 = some f.2 :=
    dictLookup_self _ f hf hndk
  have hf1 : f.1 ∈ s.nuclides.map Prod.fst := by
    rw [← hkeys]
    exact List.mem_map_of_mem Prod.fst hf
  obtain ⟨e, he, hke⟩ := List.mem_map.mp hf1
  obtain ⟨nuc, hnl, hnk⟩ := run_keys_invariant s hnd hts hdt hit
    s.iterations.toNat (le_refl _) e he (hfresh e he)
  rw [hke, hlk] at hnl
  have hfn : f.2 = nuc := (Option.some.injEq _ _).mp hnl
  rw [hfn, hnk, hts]
  have : (s.iterations + 1).toNat = s.iterations.toNat + 1 := by omega
  rw [this]

/-- A convergence sub-run on a freshly seeded, nodup registry with
positive timestep and duration succeeds. -/
lemma solver_run_conv_ok (nuclides : List (String × Nuclide)) (dtv stop : ℚ)
    (hdt : 0 < dtv) (hstop : 0 < stop)
    (hnd : (nuclides.map Prod.fst).Nodup)
    (hfresh : ∀ e ∈ nuclides, (e : String × Nuclide).2.decay_data = [(0, e.2.n_0)]) :
    ∃ c, solver_run_conv nuclides dtv stop = .ok c := by
  have h4 : convert_time "seconds" dtv ≠ 0 := by
    show dtv ≠ 0
    exact ne_of_gt (lt_of_lt_of_le hdt (le_refl dtv)) |>.symm.symm
  have hmk0 := make_ok nuclides dtv stop "seconds" "seconds" (by decide) (by decide)
    (by linarith) h4
  obtain ⟨s, hmk⟩ : ∃ s, DecaySolver.make (some nuclides) (some dtv) (some "seconds")
      (some stop) (some "seconds") = .ok s := ⟨_, hmk0⟩
  rw [hmk] at hmk0
  have hs := (Except.ok.injEq _ _).mp hmk0.symm
  have hsn : s.nuclides = nuclides := by rw [← hs]
  have hst : s.timestep = convert_time "seconds" dtv := by rw [← hs]
  have hsi : s.iterations = truncQ (convert_time "seconds" stop / convert_time "seconds" dtv) := by
    rw [← hs]
  have hstl : s.times_list = (List.range
      ((truncQ (convert_time "seconds" stop / convert_time "seconds" dtv)) + 1).toNat).map
      (fun i : ℕ => (i : ℚ) * convert_time "seconds" dtv) := by
    rw [← hs]
  have hdts : 0 < s.timestep := by
    rw [hst]
    exact hdt
  have hit : 0 ≤ s.iterations := by
    rw [hsi]
    have : (0 : ℚ) < convert_time "seconds" stop / convert_time "seconds" dtv :=
      div_pos hstop hdt
    rw [truncQ_nonneg _ (le_of_lt this)]
    exact Int.floor_nonneg.mpr (le_of_lt this)
  have hall := run_all_keys s (by rw [hsn]; exact hnd)
    (by rw [hstl, hsi, hst]) hdts hit (by rw [hsn]; exact hfresh)
  have hcomp : compile_data (calc_euler_decay s)
      = .ok (foldCols ((calc_euler_decay s).nuclides.map Prod.snd)
        (make_dataframe (calc_euler_decay s))) := by
    apply compile_fold_ok
    intro nuc hn
    obtain ⟨f, hf, hfe⟩ := List.mem_map.mp hn
    rw [← hfe]
    exact hall f hf
  refine ⟨(calc_euler_decay s).nuclides, ?_⟩
  unfold solver_run_conv DecaySolver.run
  rw [hmk]
  simp only [bind, Except.bind]
  rw [hcomp]

/-- Witness for the C3 theorem: with tolerance `-1` (never reachable, as
the error is non-negative) one concrete iteration reduces to the loop at
the halved timestep. -/
theorem convergence_iteration_witness :
    check_convergence_loop (-1) [("A", nucA)] 1 1 (0 + 1)
      = check_convergence_loop (-1) [("A", nucA)] (1 / 2) 1 0 := by
  obtain ⟨c1, h1⟩ := solver_run_conv_ok [("A", nucA)] 1 1 (by norm_num) (by norm_num)
    (by decide) (by decide)
  obtain ⟨c2, h2⟩ := solver_run_conv_ok [("A", nucA)] (1 / 2) 1 (by norm_num) (by norm_num)
    (by decide) (by decide)
  exact (convergence_iteration (-1) 1 1 [("A", nucA)] 0 c1 c2 h1 h2).2
    (not_lt.mpr (le_trans (by norm_num) (error_inf_nonneg c1 c2)))

/-- Witness for the C4 theorem: `solverAB` holds misaligned series (the
fresh seeds never ran), `solverAB0` is a zero-step solver whose seeds
align. -/
theorem compile_misalignment_witness :
    (∃ off ∈ solverAB.nuclides.map Prod.snd,
        off.decay_data.map Prod.fst ≠ solverAB.times_list ∧
        compile_data solverAB = .error (misalignMsg off.name) ∧
        compile_data_state solverAB = solverAB)
    ∧ (∃ t, compile_data solverAB0 = .ok t ∧
        compile_data_state solverAB0 = { solverAB0 with decay_data := some t } ∧
        t.time_col.length = (solverAB0.iterations + 1).toNat ∧
        t.time_col_name = "time (" ++ solverAB0.duration_unit ++ ")" ∧
        t.time_col = (if solverAB0.duration_unit ≠ "seconds" then
            ((List.range (solverAB0.iterations + 1).toNat).map
              (fun i : ℕ => (i : ℚ) * solverAB0.timestep)).map
              (fun x => x / (time_conversions solverAB0.duration_unit).getD 0)
          else (List.range (solverAB0.iterations + 1).toNat).map
            (fun i : ℕ => (i : ℚ) * solverAB0.timestep)) ∧
        t.value_cols.map Prod.fst = (solverAB0.nuclides.map Prod.snd).map Nuclide.name ∧
        ∀ nuc ∈ solverAB0.nuclides.map Prod.snd,
          colLookup t nuc.name = some (nuc.decay_data.map Prod.snd) ∧
          (nuc.decay_data.map Prod.snd).length = (solverAB0.iterations + 1).toNat) :=
  ⟨(compile_misalignment solverAB (by decide)).1
      ⟨nucA, List.mem_map_of_mem Prod.snd (List.mem_cons_self _ _), by decide⟩,
   (compile_misalignment solverAB0 (by decide)).2 (by decide) (by decide)⟩

/-- Witness for the amended C5 theorem: a zero duration is rejected, a
negative timestep is accepted. -/
theorem solver_construction_validation_witness :
    DecaySolver.make (some []) (some 1) (some "seconds") (some 0) (some "seconds")
      = .error "Duration must be positive"
    ∧ ∃ s, DecaySolver.make (some []) (some (-1)) (some "seconds")
      (some 1) (some "seconds") = .ok s :=
  ⟨solver_construction_validation.2.2.2.2.2.2.1 (some []) 1 "seconds" "seconds" 0
      (by decide) (by decide) (by norm_num),
   solver_construction_validation.2.2.2.2.2.2.2.2 [] (-1) "seconds" "seconds" 1
      (by decide) (by decide) (by norm_num) (by norm_num)⟩

/-- Witness for the amended C6 theorem at half-life `-1` seconds. -/
theorem nuclide_half_life_unguarded_witness :
    ∃ nuc, Nuclide.make "X" (-1) none "seconds" "seconds" 0 0 = .ok nuc ∧
      nuc.half_life = (-1) * conv_factor "seconds" ∧
      nuc.decay_const = ln2 / ((-1) * conv_factor "seconds") ∧
      ((-1 : ℚ) < 0 → nuc.decay_const < 0) :=
  nuclide_half_life_unguarded "X" (-1) (by norm_num) "seconds" (by decide) none 0 0

/-- Witness for the C7 theorem: `nucB` lists the unregistered parent
name A in a registry holding only B. -/
theorem unresolved_parent_contributes_zero_witness :
    (∀ ps : List String, parentFlux [("B", nucB)] ps
      = parentFlux [("B", nucB)] (ps.filter (fun p => p ≠ "A")))
    ∧ (∀ (dt : ℚ) (nuc : Nuclide), eulerNext [("B", nucB)] dt nuc
        = eulerNext [("B", nucB)] dt
          { nuc with parents := nuc.parents.filter (fun p => p ≠ "A") })
    ∧ (∀ (dt : ℚ) (tl : List ℚ) (idx : ℕ) (name : String),
        (([("B", nucB)] : List (String × Nuclide)).map Prod.fst).Nodup →
        Option.map (fun n : Nuclide => (n.n_t, n.decay_data))
            (dictLookup (calcEulerStep dt tl idx [("B", nucB)]) name)
          = Option.map (fun n : Nuclide => (n.n_t, n.decay_data))
            (dictLookup (calcEulerStep dt tl idx (dropParent [("B", nucB)] "A")) name)) :=
  unresolved_parent_contributes_zero [("B", nucB)] "A" (by rfl)

/-- A one-object heap whose single reference the caller's dict holds. -/
def heapW : Heap := { store := [(0, nucA)], fresh := 1 }

/-- The caller's dict over `heapW`. -/
def dW : List (String × ℕ) := [("A", 0)]

/-- Witness for the C8 theorem on the one-object heap. -/
theorem convergence_caller_isolation_witness :
    (∀ e ∈ dW, heapGet (check_convergence_heap 1 1 1 heapW dW 1).2
        (Prod.snd e) = heapGet heapW (Prod.snd e))
    ∧ (∀ r1 ∈ (deepcopyDict heapW dW).1.map Prod.snd,
        ∀ r2 ∈ (deepcopyDict (deepcopyDict heapW dW).2 dW).1.map Prod.snd, r1 ≠ r2) :=
  convergence_caller_isolation 1 1 1 1 heapW dW
    (by unfold wfHeap heapW; decide) (by decide)

/-- Witness for the C9 theorem at tolerance 0 over `regAB`. -/
theorem convergence_never_witness :
    (∀ c1 c2 : List (String × Nuclide), 0 ≤ error_inf_of c1 c2)
    ∧ (∀ (fuel : ℕ) (dt : ℚ) (r : ℚ × ℚ),
        check_convergence_loop 0 regAB dt 1 fuel ≠ .ok (some r)) :=
  convergence_never_for_nonpositive_tolerance 0 (by norm_num) regAB 1

/-- Witness for the C10 theorem: re-adding name A over `solverAB`. -/
theorem add_nuclide_overwrites_witness :
    ∃ s2 entry,
      add_nuclide solverAB "A" [] 5 0 0 "seconds" "seconds" = .ok s2 ∧
      Nuclide.make "A" 5 (some []) "seconds" "seconds" 0 0 = .ok entry ∧
      dictLookup s2.nuclides "A" = some entry ∧
      s2.nuclides.map Prod.fst = solverAB.nuclides.map Prod.fst ∧
      (∀ k, k ≠ "A" → dictLookup s2.nuclides k = dictLookup solverAB.nuclides k) :=
  add_nuclide_overwrites solverAB "A" [] 5 0 0 "seconds" "seconds"
    (by decide) (by decide) (by decide)

end DecaySim
